import Mathlib

/-!
# Spherical Mercator projection: embedding and verification

A shallow embedding of `sphericalmercator.go` (package `sphericalmercator`).

* `float64` values are read as real numbers (`ℝ`); `math.Sin`, `math.Log`,
  `math.Tan`, `math.Atan`, `math.Exp` and `math.Pow` are the corresponding real
  functions, `math.Floor` and `math.Round` are `Floor` and `Round` below.
* In `Forward` the logarithm is taken of a tangent that is positive only strictly
  between the poles. `Forward` reads it over the reals, which is exact there;
  `ForwardIEEE` embeds the same method on values of type `Float64`, which keep the
  special values `+Inf`, `-Inf` and `NaN` that `math.Log` and `math.Tan` produce at
  the poles and beyond them. The two agree strictly between the poles.
* Go `int` values are integers (`Int`); no operation of the package can
  overflow them.
* A slice is a list. An index or slice expression that is out of range
  panics in Go; the embedding returns `none` there, so every operation that
  can panic returns an `Option`. The `nil` slice is the empty list.
* The package-level `cache` is threaded explicitly: `New` takes the cache
  before the call and returns the cache after it.
* The dynamically typed `zoom interface{}` argument is the type `Zoom`.
-/

namespace sphericalmercator

/-! ## Constants -/

/-- The constant `epsln = 1.0e-10`. -/
noncomputable def epsln : ℝ := 1.0e-10

/-- The constant `d2r = math.Pi / 180.0`. -/
noncomputable def d2r : ℝ := Real.pi / 180.0

/-- The constant `r2d = 180.0 / math.Pi`. -/
noncomputable def r2d : ℝ := 180.0 / Real.pi

/-- The constant `a = 6378137.0`, the radius of the sphere in metres. -/
noncomputable def a : ℝ := 6378137.0

/-- The constant `maxExtent = 20037508.342789244`. -/
noncomputable def maxExtent : ℝ := 20037508.342789244

/-! ## Library functions of package `math` -/

/-- Go `math.Floor`: the greatest integer value less than or equal to `x`. -/
noncomputable def Floor (x : ℝ) : ℝ := ((⌊x⌋ : Int) : ℝ)

/-- Go `math.Round`: the nearest integer, rounding half away from zero. -/
noncomputable def Round (x : ℝ) : ℝ :=
  if x < 0 then -((⌊-x + 1 / 2⌋ : Int) : ℝ) else ((⌊x + 1 / 2⌋ : Int) : ℝ)

/-! ## Data model -/

/-- The inner map of the cache, `map[string][]float64`: a missing key reads as
the `nil` slice. -/
abbrev Consts := String → List ℝ

/-- The type `Cache`, `map[int]map[string][]float64`. -/
abbrev Cache := Int → Option Consts

/-- The package-level `cache = Cache{}` at program start. -/
def cache : Cache := fun _ => none

/-- Reading `cache[size][name]`: a missing outer key reads as the `nil` map,
and a key of the `nil` map reads as the `nil` slice. -/
def Cache.read (c : Cache) (size : Int) (name : String) : List ℝ :=
  match c size with
  | some m => m name
  | none => []

/-- The type `Options`. -/
structure Options where
  Size : Int

/-- The type `SphericalMercator`. -/
structure SphericalMercator where
  size : Int
  sizef : ℝ
  bc : List ℝ
  cc : List ℝ
  zc : List ℝ
  ac : List ℝ

/-- The zero value `SphericalMercator{}`. -/
def SphericalMercator.zero : SphericalMercator :=
  { size := 0, sizef := 0, bc := [], cc := [], zc := [], ac := [] }

/-- The dynamic type of a `zoom interface{}` argument: a `float64`, an `int`,
or a value of any other type. -/
inductive Zoom where
  | float64 (z : ℝ)
  | int (z : Int)
  | other

/-- The type `Bounds`. -/
structure Bounds where
  MinX : ℝ
  MinY : ℝ
  MaxX : ℝ
  MaxY : ℝ

/-- The index expression `s[z]` for an `int` index: panics (`none`) when `z` is
negative or not below the length. -/
def index (s : List ℝ) (z : Int) : Option ℝ :=
  if 0 ≤ z then s[z.toNat]? else none

/-! ## Construction -/

/-- One iteration `d` of the loop of `New`, on the state `(size, c)`. -/
noncomputable def newStep (st : ℝ × Consts) (d : Nat) : ℝ × Consts :=
  let size := st.1
  let c := st.2
  let c := Function.update c "bc" ((c "bc").set d (size / 360.0))
  let c := Function.update c "cc" ((c "cc").set d (size / (2.0 * Real.pi)))
  let c := Function.update c "zc" ((c "zc").set d (size / 2.0))
  let c := Function.update c "ac" ((c "ac").set d size)
  (size * 2, c)

/-- The map `c` built by `New` when the cache has no entry: four slices of
length 30 filled by the loop `for d := 0; d < 30; d++`. -/
noncomputable def newConsts (sizef : ℝ) : Consts :=
  let c : Consts := fun _ => []
  let c := Function.update c "bc" (List.replicate 30 0)
  let c := Function.update c "cc" (List.replicate 30 0)
  let c := Function.update c "zc" (List.replicate 30 0)
  let c := Function.update c "ac" (List.replicate 30 0)
  ((List.range 30).foldl newStep (sizef, c)).2

/-- The function `New`, from the cache before the call to the projection
returned and the cache after the call. -/
noncomputable def New (cache : Cache) (opts : Option Options) : SphericalMercator × Cache :=
  let sm := SphericalMercator.zero
  let sm := match opts with
    | none => { sm with size := 256 }
    | some o => { sm with size := o.Size }
  let sm := { sm with sizef := (sm.size : ℝ) }
  match cache sm.size with
  | some _ => (sm, cache)
  | none =>
    let cache := Function.update cache sm.size (some (newConsts sm.sizef))
    ({ sm with
        bc := Cache.read cache sm.size "bc"
        cc := Cache.read cache sm.size "cc"
        zc := Cache.read cache sm.size "zc"
        ac := Cache.read cache sm.size "ac" }, cache)

/-! ## Projection operations -/

/-- The function `zz`. -/
noncomputable def zz : Zoom → ℝ
  | .float64 z => z
  | .int z => (z : ℝ)
  | .other => 0

/-- The method `Px`: a lon/lat pair to an x/y pixel pair. -/
noncomputable def SphericalMercator.Px (sm : SphericalMercator) (ll : List ℝ) : Zoom → Option (List ℝ)
  | .float64 z => do
    let size := sm.sizef * (2 : ℝ) ^ z
    let d := size / 2.0
    let bc := size / 360.0
    let cc := size / (2.0 * Real.pi)
    let ac := size
    let ll1 ← ll[1]?
    let f := min (max (Real.sin (d2r * ll1)) (-0.9999)) 0.9999
    let ll0 ← ll[0]?
    let x := d + ll0 * bc
    let y := d + 0.5 * Real.log ((1 + f) / (1 - f)) * -cc
    let x := if x > ac then ac else x
    let y := if y > ac then ac else y
    pure [x, y]
  | .int z => do
    let d ← index sm.zc z
    let ll1 ← ll[1]?
    let f := min (max (Real.sin (d2r * ll1)) (-0.9999)) 0.9999
    let ll0 ← ll[0]?
    let bcz ← index sm.bc z
    let x := Round (d + ll0 * bcz)
    let ccz ← index sm.cc z
    let y := Round (d + 0.5 * Real.log ((1 + f) / (1 - f)) * (-ccz))
    let acz ← index sm.ac z
    let x := if x > acz then acz else x
    let y := if y > acz then acz else y
    pure [x, y]
  | .other => pure []

/-- The method `LL`: an x/y pixel pair to a lon/lat pair. -/
noncomputable def SphericalMercator.LL (sm : SphericalMercator) (px : List ℝ) : Zoom → Option (List ℝ)
  | .float64 z => do
    let size := sm.sizef * (2 : ℝ) ^ z
    let bc := size / 360.0
    let cc := size / (2.0 * Real.pi)
    let zc := size / 2.0
    let px1 ← px[1]?
    let g := (px1 - zc) / -cc
    let px0 ← px[0]?
    let lon := (px0 - zc) / bc
    let lat := r2d * (2.0 * Real.arctan (Real.exp g) - 0.5 * Real.pi)
    pure [lon, lat]
  | .int z => do
    let px1 ← px[1]?
    let zcz ← index sm.zc z
    let ccz ← index sm.cc z
    let g := (px1 - zcz) / (-ccz)
    let px0 ← px[0]?
    let bcz ← index sm.bc z
    let lon := (px0 - zcz) / bcz
    let lat := r2d * (2.0 * Real.arctan (Real.exp g) - 0.5 * Real.pi)
    pure [lon, lat]
  | .other => pure []

/-- The method `Forward`: lon/lat to 900913 x/y, saturated at `maxExtent`, read over
the reals. The reading is exact wherever the tangent is positive, so for every latitude
strictly between the poles; `ForwardIEEE` below covers the other latitudes. -/
noncomputable def SphericalMercator.Forward (_sm : SphericalMercator) (ll : List ℝ) : Option (List ℝ) := do
  let ll0 ← ll[0]?
  let ll1 ← ll[1]?
  let xy0 := a * ll0 * d2r
  let xy1 := a * Real.log (Real.tan ((Real.pi * 0.25) + (0.5 * ll1 * d2r)))
  let xy0 := if xy0 > maxExtent then maxExtent else xy0
  let xy0 := if xy0 < -maxExtent then -maxExtent else xy0
  let xy1 := if xy1 > maxExtent then maxExtent else xy1
  let xy1 := if xy1 < -maxExtent then -maxExtent else xy1
  pure [xy0, xy1]

/-- The method `Inverse`: 900913 x/y to lon/lat. -/
noncomputable def SphericalMercator.Inverse (_sm : SphericalMercator) (xy : List ℝ) : Option (List ℝ) := do
  let xy0 ← xy[0]?
  let xy1 ← xy[1]?
  pure [xy0 * r2d / a, ((Real.pi * 0.5) - 2.0 * Real.arctan (Real.exp (-xy1 / a))) * r2d]

/-- The method `Convert`. The slice expressions `bbox[0:2]` and `bbox[2:4]`
are taken on a slice whose capacity is its length, so they panic when the
bbox has fewer than four elements. -/
noncomputable def SphericalMercator.Convert (sm : SphericalMercator) (bbox : List ℝ) (dst : String) :
    Option (List ℝ) :=
  if bbox.length < 4 then none
  else if dst = "900913" then do
    let p ← sm.Forward (bbox.take 2)
    let q ← sm.Forward ((bbox.take 4).drop 2)
    pure (p ++ q)
  else do
    let p ← sm.Inverse (bbox.take 2)
    let q ← sm.Inverse ((bbox.take 4).drop 2)
    pure (p ++ q)

/-- The method `BBox`: tile x/y/zoom to a bbox `[w, s, e, n]`. -/
noncomputable def SphericalMercator.BBox (sm : SphericalMercator) (x y : ℝ) (zoom : Zoom) (tmsStyle : Bool)
    (srs : String) : Option (List ℝ) := do
  let y := if tmsStyle then ((2 : ℝ) ^ zz zoom - 1) - y else y
  let ll := [x * sm.sizef, (y + 1) * sm.sizef]
  let ur := [(x + 1) * sm.sizef, y * sm.sizef]
  let bbox : List ℝ := []
  let bbox := bbox ++ (← sm.LL ll zoom)
  let bbox := bbox ++ (← sm.LL ur zoom)
  if srs = "900913" then sm.Convert bbox "900913" else pure bbox

/-- The function `minZero`: the least element, or zero when that is negative. -/
noncomputable def minZero (s : List ℝ) : Option ℝ := do
  let m ← s[0]?
  let m := s.foldl (fun m v => if v < m then v else m) m
  if m < 0 then pure 0 else pure m

/-- The function `max`: the greatest element. -/
noncomputable def max (s : List ℝ) : Option ℝ := do
  let m ← s[0]?
  pure (s.foldl (fun m v => if v > m then v else m) m)

/-- The method `XYZ`: a bbox to the bounds of the tiles that cover it. -/
noncomputable def SphericalMercator.XYZ (sm : SphericalMercator) (bbox : List ℝ) (zoom : Zoom)
    (tmsStyle : Bool) (srs : String) : Option Bounds := do
  let bbox ← if srs = "900913" then sm.Convert bbox "WGS84" else pure bbox
  let ll := [← bbox[0]?, ← bbox[1]?]
  let ur := [← bbox[2]?, ← bbox[3]?]
  let pxLL ← sm.Px ll zoom
  let pxUR ← sm.Px ur zoom
  let x := [Floor ((← pxLL[0]?) / sm.sizef), Floor (((← pxUR[0]?) - 1) / sm.sizef)]
  let y := [Floor ((← pxUR[1]?) / sm.sizef), Floor (((← pxLL[1]?) - 1) / sm.sizef)]
  let bounds : Bounds :=
    { MinX := ← minZero x, MinY := ← minZero y, MaxX := ← max x, MaxY := ← max y }
  if tmsStyle then
    let tms : Bounds :=
      { MinX := 0
        MaxX := 0
        MinY := ((2 : ℝ) ^ zz zoom - 1) - bounds.MaxY
        MaxY := ((2 : ℝ) ^ zz zoom - 1) - bounds.MinY }
    pure { bounds with MinY := tms.MinY, MaxY := tms.MaxY }
  else pure bounds

/-! ## `Forward` with the special values of `math.Log` and `math.Tan` -/

/-- A `float64` value where it need not be a real number: a real number, `+Inf`,
`-Inf` or `NaN`. -/
inductive Float64 where
  | real (x : ℝ)
  | posInf
  | negInf
  | nan

/-- Go `math.Tan` at a real argument. At an odd multiple of `π / 2` the real tangent
has a pole; the code gets there only through the double next to it. The model takes
the side of zero, where the tangent has the sign of the argument: that is where the
double lies at latitude 90 (the double nearest `π / 2` is below it), the one pole inside
the latitudes `-90 .. 90`, where the code computes a large positive tangent. -/
noncomputable def Tan (x : ℝ) : Float64 :=
  if Real.cos x = 0 then (if 0 < x then .posInf else .negInf) else .real (Real.tan x)

/-- Go `math.Log` with its special cases: `Log(+Inf) = +Inf`, `Log(0) = -Inf`,
`Log(x < 0) = NaN`, `Log(NaN) = NaN`. -/
noncomputable def Log : Float64 → Float64
  | .real x => if x < 0 then .nan else if x = 0 then .negInf else .real (Real.log x)
  | .posInf => .posInf
  | .negInf => .nan
  | .nan => .nan

/-- The product `k * v` of a real number and a `float64` value. -/
noncomputable def Float64.scale (k : ℝ) : Float64 → Float64
  | .real x => .real (k * x)
  | .posInf => if 0 < k then .posInf else if k < 0 then .negInf else .nan
  | .negInf => if 0 < k then .negInf else if k < 0 then .posInf else .nan
  | .nan => .nan

/-- The comparison `v > m`; false when `v` is `NaN`. -/
noncomputable def Float64.gt (v : Float64) (m : ℝ) : Bool :=
  match v with
  | .real x => decide (x > m)
  | .posInf => true
  | .negInf => false
  | .nan => false

/-- The comparison `v < m`; false when `v` is `NaN`. -/
noncomputable def Float64.lt (v : Float64) (m : ℝ) : Bool :=
  match v with
  | .real x => decide (x < m)
  | .posInf => false
  | .negInf => true
  | .nan => false

/-- The method `Forward` with the special values of `math.Log` and `math.Tan`: the
same statements as `Forward`, on `float64` values that may be infinite or `NaN`. -/
noncomputable def SphericalMercator.ForwardIEEE (_sm : SphericalMercator) (ll : List ℝ) :
    Option (List Float64) := do
  let ll0 ← ll[0]?
  let ll1 ← ll[1]?
  let xy0 : Float64 := .real (a * ll0 * d2r)
  let xy1 : Float64 := Float64.scale a (Log (Tan ((Real.pi * 0.25) + (0.5 * ll1 * d2r))))
  let xy0 := if xy0.gt maxExtent then .real maxExtent else xy0
  let xy0 := if xy0.lt (-maxExtent) then .real (-maxExtent) else xy0
  let xy1 := if xy1.gt maxExtent then .real maxExtent else xy1
  let xy1 := if xy1.lt (-maxExtent) then .real (-maxExtent) else xy1
  pure [xy0, xy1]

/-! ## The constants built by `New` -/

open Real

/-- The state of the loop of `New` after `n` iterations. -/
theorem newStep_foldl (s : ℝ) (c0 : Consts) (n : Nat)
    (hbc : (c0 "bc").length = 30) (hcc : (c0 "cc").length = 30)
    (hzc : (c0 "zc").length = 30) (hac : (c0 "ac").length = 30) (hn : n ≤ 30) :
    let st := (List.range n).foldl newStep (s, c0)
    st.1 = s * 2 ^ n ∧
    (st.2 "bc").length = 30 ∧ (st.2 "cc").length = 30 ∧
    (st.2 "zc").length = 30 ∧ (st.2 "ac").length = 30 ∧
    ∀ d, d < n →
      (st.2 "bc")[d]? = some (s * 2 ^ d / 360) ∧
      (st.2 "cc")[d]? = some (s * 2 ^ d / (2 * π)) ∧
      (st.2 "zc")[d]? = some (s * 2 ^ d / 2) ∧
      (st.2 "ac")[d]? = some (s * 2 ^ d) := by
  induction n with
  | zero => simp [hbc, hcc, hzc, hac]
  | succ n ih =>
    obtain ⟨h1, h2, h3, h4, h5, h6⟩ := ih (by omega)
    simp only [List.range_succ, List.foldl_append, List.foldl_cons, List.foldl_nil]
    generalize (List.range n).foldl newStep (s, c0) = st at h1 h2 h3 h4 h5 h6
    obtain ⟨sz, c⟩ := st
    simp only at h1 h2 h3 h4 h5 h6
    subst h1
    have e1 : ("bc" : String) ≠ "cc" := by decide
    have e2 : ("bc" : String) ≠ "zc" := by decide
    have e3 : ("bc" : String) ≠ "ac" := by decide
    have e4 : ("cc" : String) ≠ "zc" := by decide
    have e5 : ("cc" : String) ≠ "ac" := by decide
    have e6 : ("zc" : String) ≠ "ac" := by decide
    simp only [newStep, Function.update_same, Function.update_noteq e1, Function.update_noteq e2,
      Function.update_noteq e3, Function.update_noteq e4, Function.update_noteq e5,
      Function.update_noteq e6, Function.update_noteq e1.symm, Function.update_noteq e2.symm,
      Function.update_noteq e3.symm, Function.update_noteq e4.symm, Function.update_noteq e5.symm,
      Function.update_noteq e6.symm, List.length_set, ne_eq, not_false_eq_true]
    refine ⟨by ring, h2, h3, h4, h5, ?_⟩
    intro d hd
    rcases Nat.lt_succ_iff_lt_or_eq.mp hd with hlt | rfl
    · have hne : n ≠ d := by omega
      simp only [List.getElem?_set_ne hne]
      exact h6 d hlt
    · have hd30 : d < 30 := by omega
      simp only [List.getElem?_set_self (h2 ▸ hd30), List.getElem?_set_self (h3 ▸ hd30),
        List.getElem?_set_self (h4 ▸ hd30), List.getElem?_set_self (h5 ▸ hd30)]
      norm_num



/-- The slices built by `New` for a size without cache entry. -/
theorem newConsts_spec (s : ℝ) :
    (newConsts s "bc").length = 30 ∧ (newConsts s "cc").length = 30 ∧
    (newConsts s "zc").length = 30 ∧ (newConsts s "ac").length = 30 ∧
    ∀ d, d < 30 →
      (newConsts s "bc")[d]? = some (s * 2 ^ d / 360) ∧
      (newConsts s "cc")[d]? = some (s * 2 ^ d / (2 * π)) ∧
      (newConsts s "zc")[d]? = some (s * 2 ^ d / 2) ∧
      (newConsts s "ac")[d]? = some (s * 2 ^ d) := by
  have e1 : ("bc" : String) ≠ "cc" := by decide
  have e2 : ("bc" : String) ≠ "zc" := by decide
  have e3 : ("bc" : String) ≠ "ac" := by decide
  have e4 : ("cc" : String) ≠ "zc" := by decide
  have e5 : ("cc" : String) ≠ "ac" := by decide
  have e6 : ("zc" : String) ≠ "ac" := by decide
  have h := newStep_foldl s
    (Function.update (Function.update (Function.update (Function.update (fun _ => [])
      "bc" (List.replicate 30 0)) "cc" (List.replicate 30 0)) "zc" (List.replicate 30 0))
      "ac" (List.replicate 30 0)) 30
    (by simp [Function.update_noteq e1, Function.update_noteq e2, Function.update_noteq e3])
    (by simp [Function.update_noteq e4, Function.update_noteq e5])
    (by simp [Function.update_noteq e6])
    (by simp) le_rfl
  exact h.2

/-- The size chosen by `New`. -/
theorem New_size (c : Cache) (opts : Option Options) :
    (New c opts).1.size = (match opts with | none => 256 | some o => o.Size) ∧
    (New c opts).1.sizef = ((New c opts).1.size : ℝ) := by
  cases opts with
  | none =>
    simp only [New, SphericalMercator.zero]
    cases c 256 <;> simp
  | some o =>
    simp only [New, SphericalMercator.zero]
    cases c o.Size <;> simp

/-- The fields of the projection `New` returns for a size that has no cache entry. -/
theorem New_fresh (c : Cache) (s : Int) (hc : c s = none) :
    (New c (some ⟨s⟩)).1.size = s ∧ (New c (some ⟨s⟩)).1.sizef = (s : ℝ) ∧
    (New c (some ⟨s⟩)).1.bc = newConsts (s : ℝ) "bc" ∧
    (New c (some ⟨s⟩)).1.cc = newConsts (s : ℝ) "cc" ∧
    (New c (some ⟨s⟩)).1.zc = newConsts (s : ℝ) "zc" ∧
    (New c (some ⟨s⟩)).1.ac = newConsts (s : ℝ) "ac" ∧
    (New c (some ⟨s⟩)).2 = Function.update c s (some (newConsts (s : ℝ))) := by
  simp [New, SphericalMercator.zero, hc, Cache.read]

theorem index_natCast (l : List ℝ) (z : Nat) : index l (z : Int) = l[z]? := by
  simp [index]

/-- The constants of zoom level `z` of a freshly built projection. -/
theorem New_fresh_index (c : Cache) (s : Int) (hc : c s = none) (z : Nat) (hz : z ≤ 29) :
    index (New c (some ⟨s⟩)).1.bc z = some ((s : ℝ) * 2 ^ z / 360) ∧
    index (New c (some ⟨s⟩)).1.cc z = some ((s : ℝ) * 2 ^ z / (2 * π)) ∧
    index (New c (some ⟨s⟩)).1.zc z = some ((s : ℝ) * 2 ^ z / 2) ∧
    index (New c (some ⟨s⟩)).1.ac z = some ((s : ℝ) * 2 ^ z) := by
  obtain ⟨_, _, h3, h4, h5, h6, _⟩ := New_fresh c s hc
  have h := (newConsts_spec (s : ℝ)).2.2.2.2 z (by omega)
  rw [h3, h4, h5, h6]
  simpa [index_natCast] using h



/-! ## Real-analysis facts behind the projection formulas -/

/-- `e ^ (2 π) < 19999`: at `|g| ≤ π` the sine clamp of `Px` is not reached. -/
theorem exp_two_pi_lt : Real.exp (2 * π) < 19999 := by
  have h7 : 2 * π < 7 := by linarith [Real.pi_lt_d2]
  have h1 : Real.exp 7 = Real.exp 1 ^ 7 := by
    rw [← Real.exp_nat_mul]; norm_num
  have h2 : Real.exp 1 < 2.72 := lt_trans Real.exp_one_lt_d9 (by norm_num)
  have h3 : Real.exp 1 ^ 7 < 2.72 ^ 7 :=
    pow_lt_pow_left₀ h2 (Real.exp_pos 1).le (by norm_num)
  calc Real.exp (2 * π) < Real.exp 7 := Real.exp_lt_exp.mpr h7
    _ = Real.exp 1 ^ 7 := h1
    _ < 2.72 ^ 7 := h3
    _ < 19999 := by norm_num

/-- The sine of the latitude that `LL` computes from `g` is `tanh g` written with
`t = e ^ g`. -/
theorem sin_gd (g : ℝ) :
    Real.sin (2 * Real.arctan (Real.exp g) - π / 2) = 1 - 2 / (1 + Real.exp g ^ 2) := by
  have h : Real.sin (2 * Real.arctan (Real.exp g) - π / 2)
      = -Real.cos (2 * Real.arctan (Real.exp g)) := by
    rw [Real.sin_sub, Real.cos_pi_div_two, Real.sin_pi_div_two]; ring
  rw [h, Real.cos_two_mul, Real.cos_sq_arctan]
  ring

/-- The log-tangent form of `Px` undoes the latitude of `LL` when the clamp
is not reached. -/
theorem half_log_gd (g : ℝ) (hlo : -π ≤ g) (hhi : g ≤ π) :
    let f := min (Max.max (Real.sin (2 * Real.arctan (Real.exp g) - π / 2)) (-0.9999)) 0.9999
    0.5 * Real.log ((1 + f) / (1 - f)) = g := by
  intro f
  have ht : 0 < Real.exp g := Real.exp_pos g
  have ht2 : 0 < Real.exp g ^ 2 := by positivity
  have hsq : Real.exp g ^ 2 = Real.exp (2 * g) := by
    rw [← Real.exp_nat_mul]; norm_num
  have hup : Real.exp g ^ 2 < 19999 := by
    rw [hsq]
    exact lt_of_le_of_lt (Real.exp_le_exp.mpr (by linarith)) exp_two_pi_lt
  have hdn : 1 / 19999 < Real.exp g ^ 2 := by
    rw [hsq]
    have h1 : Real.exp (-(2 * g)) < 19999 :=
      lt_of_le_of_lt (Real.exp_le_exp.mpr (by linarith)) exp_two_pi_lt
    rw [Real.exp_neg] at h1
    have h2 : 0 < Real.exp (2 * g) := Real.exp_pos _
    rw [div_lt_iff₀ (by norm_num)]
    rw [inv_lt_comm₀ (by positivity) (by norm_num)] at h1
    have : (19999 : ℝ)⁻¹ * 19999 = 1 := by norm_num
    nlinarith
  have hden : 0 < 1 + Real.exp g ^ 2 := by positivity
  have hf : f = 1 - 2 / (1 + Real.exp g ^ 2) := by
    have hs := sin_gd g
    have h1 : (-0.9999 : ℝ) ≤ 1 - 2 / (1 + Real.exp g ^ 2) := by
      rw [le_sub_iff_add_le, ← le_sub_iff_add_le', div_le_iff₀ hden]
      norm_num at hdn ⊢
      nlinarith
    have h2 : 1 - 2 / (1 + Real.exp g ^ 2) ≤ (0.9999 : ℝ) := by
      rw [sub_le_iff_le_add, ← sub_le_iff_le_add', le_div_iff₀ hden]
      norm_num
      nlinarith
    show min (Max.max (Real.sin (2 * Real.arctan (Real.exp g) - π / 2)) (-0.9999)) 0.9999 = _
    rw [hs, max_eq_left h1, min_eq_left h2]
  have hratio : (1 + f) / (1 - f) = Real.exp (2 * g) := by
    rw [hf, ← hsq]
    field_simp
    ring
  rw [hratio, Real.log_exp]
  ring



/-- For a latitude `φ` strictly between the poles, the ratio under the logarithm of
`Px` is the square of the tangent under the logarithm of `Forward`. -/
theorem ratio_eq_tan_sq (φ : ℝ) (hlo : -(π / 2) < φ) (hhi : φ < π / 2) :
    0 < Real.tan (π / 4 + φ / 2) ∧
    (1 + Real.sin φ) / (1 - Real.sin φ) = Real.tan (π / 4 + φ / 2) ^ 2 := by
  have hu0 : 0 < π / 4 + φ / 2 := by linarith
  have hu1 : π / 4 + φ / 2 < π / 2 := by linarith
  have hcos : 0 < Real.cos (π / 4 + φ / 2) :=
    Real.cos_pos_of_mem_Ioo ⟨by linarith, hu1⟩
  refine ⟨Real.tan_pos_of_pos_of_lt_pi_div_two hu0 hu1, ?_⟩
  have hφ : φ = 2 * (π / 4 + φ / 2) - π / 2 := by ring
  have hs : Real.sin φ = 1 - 2 * Real.cos (π / 4 + φ / 2) ^ 2 := by
    conv_lhs => rw [hφ]
    rw [Real.sin_sub, Real.cos_pi_div_two, Real.sin_pi_div_two, Real.cos_two_mul]; ring
  have hs2 : Real.sin (π / 4 + φ / 2) ^ 2 = 1 - Real.cos (π / 4 + φ / 2) ^ 2 := by
    have := Real.sin_sq_add_cos_sq (π / 4 + φ / 2); linarith
  rw [Real.tan_eq_sin_div_cos, div_pow, hs2, hs]
  have hc2 : Real.cos (π / 4 + φ / 2) ^ 2 ≠ 0 := by positivity
  field_simp
  ring

/-- The tangent at the latitude 85.05 degrees is below `e ^ π`. -/
theorem tan_cap_le : Real.tan (π / 4 + 85.05 * π / 360) ≤ Real.exp π := by
  set ψ : ℝ := 4.95 * π / 360 with hψ
  have hpl := Real.pi_gt_d6
  have hpu := Real.pi_lt_d6
  have hψlo : 0.0431968 < ψ := by rw [hψ]; linarith
  have hψhi : ψ < 0.0431970 := by rw [hψ]; linarith
  have hψpos : 0 < ψ := by linarith
  have harg : π / 4 + 85.05 * π / 360 = π / 2 - ψ := by rw [hψ]; ring
  rw [harg, Real.tan_pi_div_two_sub]
  have habs : |ψ| ≤ 1 := by rw [abs_of_pos hψpos]; linarith
  have hsin := (abs_le.mp (Real.sin_bound habs)).1
  have hcos := (abs_le.mp (Real.cos_bound habs)).2
  rw [abs_of_pos hψpos] at hsin hcos
  have hψ2lo : 0.0431968 ^ 2 ≤ ψ ^ 2 := pow_le_pow_left₀ (by norm_num) hψlo.le 2
  have hψ3 : ψ ^ 3 ≤ 0.0431970 ^ 3 := pow_le_pow_left₀ hψpos.le hψhi.le 3
  have hψ4 : ψ ^ 4 ≤ 0.0431970 ^ 4 := pow_le_pow_left₀ hψpos.le hψhi.le 4
  have hsinlo : 0.043183 ≤ Real.sin ψ := by
    norm_num at hψ3 hψ4 ⊢
    linarith
  have hcoshi : Real.cos ψ ≤ 0.999068 := by
    norm_num at hψ2lo hψ4 ⊢
    linarith
  have hcospos : 0 < Real.cos ψ :=
    Real.cos_pos_of_mem_Ioo ⟨by linarith, by linarith⟩
  have htan : 0.043223 ≤ Real.tan ψ := by
    rw [Real.tan_eq_sin_div_cos, le_div_iff₀ hcospos]
    nlinarith
  -- lower bound of exp π
  have hexp1 : Real.exp 3.1415 = Real.exp 1 ^ 3 * Real.exp 0.1415 := by
    rw [← Real.exp_nat_mul, ← Real.exp_add]; norm_num
  have he1 : (2.7182818283 : ℝ) ^ 3 ≤ Real.exp 1 ^ 3 :=
    pow_le_pow_left₀ (by norm_num) Real.exp_one_gt_d9.le 3
  have he2 : (1.15198 : ℝ) ≤ Real.exp 0.1415 := by
    have h := Real.sum_le_exp_of_nonneg (show (0 : ℝ) ≤ 0.1415 by norm_num) 4
    simp only [Finset.sum_range_succ, Finset.sum_range_zero, Nat.factorial] at h
    norm_num at h
    linarith
  have hexp : (23.1381 : ℝ) ≤ Real.exp π := by
    have h1 : Real.exp 3.1415 ≤ Real.exp π := Real.exp_le_exp.mpr (by linarith [Real.pi_gt_d4])
    have h2 : (23.1381 : ℝ) ≤ Real.exp 1 ^ 3 * Real.exp 0.1415 := by
      have h3 : (0 : ℝ) ≤ 2.7182818283 ^ 3 := by norm_num
      calc (23.1381 : ℝ) ≤ 2.7182818283 ^ 3 * 1.15198 := by norm_num
        _ ≤ Real.exp 1 ^ 3 * Real.exp 0.1415 :=
          mul_le_mul he1 he2 (by norm_num) (by positivity)
    linarith [hexp1 ▸ h2]
  have htanpos : 0 < Real.tan ψ := by linarith
  rw [inv_le_comm₀ htanpos (Real.exp_pos π)]
  have : (Real.exp π)⁻¹ ≤ (23.1381 : ℝ)⁻¹ := inv_anti₀ (by norm_num) hexp
  have h4 : (23.1381 : ℝ)⁻¹ ≤ 0.043223 := by norm_num
  linarith



/-- Inside the latitudes `|lat| ≤ 85.05` the tangent of `Forward` stays between
`e ^ (-π)` and `e ^ π`. -/
theorem tan_mem (lat : ℝ) (h : |lat| ≤ 85.05) :
    Real.exp (-π) ≤ Real.tan (π / 4 + lat * π / 360) ∧
    Real.tan (π / 4 + lat * π / 360) ≤ Real.exp π := by
  obtain ⟨h1, h2⟩ := abs_le.mp h
  have hπ := Real.pi_pos
  have hmono := Real.strictMonoOn_tan.monotoneOn
  have hmem : ∀ t : ℝ, -85.05 ≤ t → t ≤ 85.05 →
      π / 4 + t * π / 360 ∈ Set.Ioo (-(π / 2)) (π / 2) := by
    intro t ht1 ht2
    constructor <;> nlinarith
  constructor
  · have hle : π / 4 + (-85.05) * π / 360 ≤ π / 4 + lat * π / 360 := by nlinarith
    have h3 := hmono (hmem (-85.05) le_rfl (by norm_num)) (hmem lat h1 h2) hle
    have harg : π / 4 + (-85.05) * π / 360 = π / 2 - (π / 4 + 85.05 * π / 360) := by ring
    rw [harg, Real.tan_pi_div_two_sub] at h3
    have hpos : 0 < Real.tan (π / 4 + 85.05 * π / 360) :=
      Real.tan_pos_of_pos_of_lt_pi_div_two (by nlinarith) (hmem 85.05 (by norm_num) le_rfl).2
    have h4 : (Real.exp π)⁻¹ ≤ (Real.tan (π / 4 + 85.05 * π / 360))⁻¹ :=
      inv_anti₀ hpos tan_cap_le
    rw [Real.exp_neg]
    exact le_trans h4 h3
  · have hle : π / 4 + lat * π / 360 ≤ π / 4 + 85.05 * π / 360 := by nlinarith
    exact le_trans (hmono (hmem lat h1 h2) (hmem 85.05 (by norm_num) le_rfl) hle) tan_cap_le

/-- Inside the latitudes `|lat| ≤ 85.05` the sine clamp of `Px` does not change
the sine, the log-tangent form of `Px` is the one of `Forward`, and it stays
within `[-π, π]`. -/
theorem half_log_sin (lat : ℝ) (h : |lat| ≤ 85.05) :
    min (Max.max (Real.sin (d2r * lat)) (-0.9999)) 0.9999 = Real.sin (d2r * lat) ∧
    0.5 * Real.log ((1 + Real.sin (d2r * lat)) / (1 - Real.sin (d2r * lat)))
      = Real.log (Real.tan (π / 4 + lat * π / 360)) ∧
    -π ≤ Real.log (Real.tan (π / 4 + lat * π / 360)) ∧
    Real.log (Real.tan (π / 4 + lat * π / 360)) ≤ π := by
  obtain ⟨h1, h2⟩ := abs_le.mp h
  have hπ := Real.pi_pos
  have hφ1 : -(π / 2) < d2r * lat := by unfold d2r; nlinarith
  have hφ2 : d2r * lat < π / 2 := by unfold d2r; nlinarith
  obtain ⟨htpos, hratio⟩ := ratio_eq_tan_sq (d2r * lat) hφ1 hφ2
  have harg : π / 4 + d2r * lat / 2 = π / 4 + lat * π / 360 := by unfold d2r; ring
  rw [harg] at htpos hratio
  obtain ⟨hlo, hhi⟩ := tan_mem lat h
  have hloglo : -π ≤ Real.log (Real.tan (π / 4 + lat * π / 360)) := by
    rw [Real.le_log_iff_exp_le htpos]; exact hlo
  have hloghi : Real.log (Real.tan (π / 4 + lat * π / 360)) ≤ π := by
    rw [Real.log_le_iff_le_exp htpos]; exact hhi
  have hs1 : Real.sin (d2r * lat) < 1 := by
    have := Real.sin_lt_sin_of_lt_of_le_pi_div_two (by linarith) le_rfl hφ2
    rwa [Real.sin_pi_div_two] at this
  have hden : 0 < 1 - Real.sin (d2r * lat) := by linarith
  have hsq_hi : Real.tan (π / 4 + lat * π / 360) ^ 2 < 19999 := by
    have : Real.tan (π / 4 + lat * π / 360) ^ 2 ≤ Real.exp π ^ 2 :=
      pow_le_pow_left₀ htpos.le hhi 2
    have h2π : Real.exp π ^ 2 = Real.exp (2 * π) := by
      rw [← Real.exp_nat_mul]; norm_num
    linarith [exp_two_pi_lt]
  have hsq_lo : 1 / 19999 < Real.tan (π / 4 + lat * π / 360) ^ 2 := by
    have h3 : Real.exp (-π) ^ 2 ≤ Real.tan (π / 4 + lat * π / 360) ^ 2 :=
      pow_le_pow_left₀ (Real.exp_pos _).le hlo 2
    have h4 : Real.exp (-π) ^ 2 = (Real.exp (2 * π))⁻¹ := by
      rw [← Real.exp_nat_mul, ← Real.exp_neg]; norm_num
    have h5 : (19999 : ℝ)⁻¹ < (Real.exp (2 * π))⁻¹ :=
      inv_strictAnti₀ (Real.exp_pos _) exp_two_pi_lt
    rw [one_div]
    linarith
  rw [← hratio] at hsq_hi hsq_lo
  rw [div_lt_iff₀ hden] at hsq_hi
  rw [lt_div_iff₀ hden] at hsq_lo
  have hc1 : (-0.9999 : ℝ) ≤ Real.sin (d2r * lat) := by
    norm_num at hsq_lo ⊢; linarith
  have hc2 : Real.sin (d2r * lat) ≤ (0.9999 : ℝ) := by
    norm_num at hsq_hi ⊢; linarith
  refine ⟨by rw [max_eq_left hc1, min_eq_left hc2], ?_, hloglo, hloghi⟩
  rw [hratio, Real.log_pow]
  push_cast
  ring

/-! ## Rounding, and the integer-zoom path on a freshly built projection -/

/-- `Round` fixes integer values. -/
theorem Round_intCast (n : Int) : Round (n : ℝ) = (n : ℝ) := by
  unfold Round
  split_ifs with h
  · have h1 : (-(n : ℝ) + 1 / 2) = ((-n : Int) : ℝ) + 1 / 2 := by push_cast; ring
    have h2 : ⌊((-n : Int) : ℝ) + 1 / 2⌋ = -n := by
      rw [Int.floor_eq_iff]; constructor <;> push_cast <;> linarith
    rw [h1, h2]; push_cast; ring
  · have h2 : ⌊(n : ℝ) + 1 / 2⌋ = n := by
      rw [Int.floor_eq_iff]; constructor <;> linarith
    rw [h2]

/-- `Round` does not go below an integer lower bound of its argument. -/
theorem le_Round (n : Int) (x : ℝ) (h : (n : ℝ) ≤ x) : (n : ℝ) ≤ Round x := by
  unfold Round
  split_ifs with hx
  · have h1 : ⌊-x + 1 / 2⌋ ≤ -n := by
      have : ⌊-x + 1 / 2⌋ < -n + 1 := by
        rw [Int.floor_lt]; push_cast; linarith
      omega
    have h2 : ((⌊-x + 1 / 2⌋ : Int) : ℝ) ≤ ((-n : Int) : ℝ) := by exact_mod_cast h1
    push_cast at h2
    linarith
  · have h1 : n ≤ ⌊x + 1 / 2⌋ := by
      rw [Int.le_floor]; linarith
    exact_mod_cast h1

/-- `Round` does not go above an integer upper bound of its argument. -/
theorem Round_le (n : Int) (x : ℝ) (h : x ≤ (n : ℝ)) : Round x ≤ (n : ℝ) := by
  unfold Round
  split_ifs with hx
  · have h1 : -n ≤ ⌊-x + 1 / 2⌋ := by
      rw [Int.le_floor]; push_cast; linarith
    have h2 : ((-n : Int) : ℝ) ≤ ((⌊-x + 1 / 2⌋ : Int) : ℝ) := by exact_mod_cast h1
    push_cast at h2
    linarith
  · have h1 : ⌊x + 1 / 2⌋ ≤ n := by
      have : ⌊x + 1 / 2⌋ < n + 1 := by
        rw [Int.floor_lt]; push_cast; linarith
      omega
    exact_mod_cast h1

/-- `Px` at integer zoom on a freshly built projection. -/
theorem Px_int_fresh (c : Cache) (s : Int) (hc : c s = none) (z : Nat) (hz : z ≤ 29)
    (lon lat : ℝ) :
    (New c (some ⟨s⟩)).1.Px [lon, lat] (.int z) = some
      [(if Round ((s : ℝ) * 2 ^ z / 2 + lon * ((s : ℝ) * 2 ^ z / 360)) > (s : ℝ) * 2 ^ z
          then (s : ℝ) * 2 ^ z
          else Round ((s : ℝ) * 2 ^ z / 2 + lon * ((s : ℝ) * 2 ^ z / 360))),
       (if Round ((s : ℝ) * 2 ^ z / 2 + 0.5 * Real.log
              ((1 + min (Max.max (Real.sin (d2r * lat)) (-0.9999)) 0.9999) /
               (1 - min (Max.max (Real.sin (d2r * lat)) (-0.9999)) 0.9999)) *
              -((s : ℝ) * 2 ^ z / (2 * π))) > (s : ℝ) * 2 ^ z
          then (s : ℝ) * 2 ^ z
          else Round ((s : ℝ) * 2 ^ z / 2 + 0.5 * Real.log
              ((1 + min (Max.max (Real.sin (d2r * lat)) (-0.9999)) 0.9999) /
               (1 - min (Max.max (Real.sin (d2r * lat)) (-0.9999)) 0.9999)) *
              -((s : ℝ) * 2 ^ z / (2 * π))))] := by
  obtain ⟨h1, h2, h3, h4⟩ := New_fresh_index c s hc z hz
  simp only [SphericalMercator.Px, h1, h2, h3, h4, List.getElem?_cons_zero,
    List.getElem?_cons_succ, Option.bind_eq_bind, Option.some_bind, Option.pure_def]

/-- `LL` at integer zoom on a freshly built projection. -/
theorem LL_int_fresh (c : Cache) (s : Int) (hc : c s = none) (z : Nat) (hz : z ≤ 29)
    (px py : ℝ) :
    (New c (some ⟨s⟩)).1.LL [px, py] (.int z) = some
      [(px - (s : ℝ) * 2 ^ z / 2) / ((s : ℝ) * 2 ^ z / 360),
       r2d * (2.0 * Real.arctan (Real.exp
          ((py - (s : ℝ) * 2 ^ z / 2) / -((s : ℝ) * 2 ^ z / (2 * π)))) - 0.5 * π)] := by
  obtain ⟨h1, h2, h3, h4⟩ := New_fresh_index c s hc z hz
  simp only [SphericalMercator.LL, h1, h2, h3, h4, List.getElem?_cons_zero,
    List.getElem?_cons_succ, Option.bind_eq_bind, Option.some_bind, Option.pure_def]

/-- The power of two of `BBox` and `XYZ` at an integer zoom. -/
theorem two_pow_zz (z : Nat) : (2 : ℝ) ^ zz (.int (z : Int)) = (2 : ℝ) ^ z := by
  simp [zz]

/-! ## `Forward` and `Inverse` -/

/-- The radius times `π` is below `maxExtent`. -/
theorem a_mul_pi_lt : a * π < maxExtent := by
  unfold a maxExtent
  have := Real.pi_lt_d20
  norm_num at this ⊢
  linarith

/-- C4. `Inverse` undoes `Forward` inside the valid extent: for `|lon| < 180` and
`|lat| ≤ 85.05`, `Forward [lon, lat]` returns a pair and `Inverse` maps that pair
back to `[lon, lat]`, exactly over the reals. -/
theorem Inverse_Forward (sm : SphericalMercator) (lon lat : ℝ)
    (hlon : |lon| < 180) (hlat : |lat| ≤ 85.05) :
    (sm.Forward [lon, lat]).bind sm.Inverse = some [lon, lat] := by
  obtain ⟨hl1, hl2⟩ := abs_lt.mp hlon
  obtain ⟨hb1, hb2⟩ := abs_le.mp hlat
  have hπ := Real.pi_pos
  have haπ := a_mul_pi_lt
  have ha : (0 : ℝ) < a := by unfold a; norm_num
  obtain ⟨-, -, hlo, hhi⟩ := half_log_sin lat hlat
  have harg : π * 0.25 + 0.5 * lat * d2r = π / 4 + lat * π / 360 := by unfold d2r; ring
  have hx1 : ¬ (a * lon * d2r > maxExtent) := by
    have : a * lon * d2r = a * π * (lon / 180) := by unfold d2r; ring
    rw [this, not_lt]
    have h1 : a * π * (lon / 180) ≤ a * π * 1 :=
      mul_le_mul_of_nonneg_left (by linarith) (by positivity)
    linarith
  have hx2 : ¬ (a * lon * d2r < -maxExtent) := by
    have : a * lon * d2r = a * π * (lon / 180) := by unfold d2r; ring
    rw [this, not_lt]
    have h1 : a * π * (-1) ≤ a * π * (lon / 180) :=
      mul_le_mul_of_nonneg_left (by linarith) (by positivity)
    linarith
  have hy1 : ¬ (a * Real.log (Real.tan (π * 0.25 + 0.5 * lat * d2r)) > maxExtent) := by
    rw [harg, not_lt]
    have h1 : a * Real.log (Real.tan (π / 4 + lat * π / 360)) ≤ a * π :=
      mul_le_mul_of_nonneg_left hhi ha.le
    linarith
  have hy2 : ¬ (a * Real.log (Real.tan (π * 0.25 + 0.5 * lat * d2r)) < -maxExtent) := by
    rw [harg, not_lt]
    have h1 : a * (-π) ≤ a * Real.log (Real.tan (π / 4 + lat * π / 360)) :=
      mul_le_mul_of_nonneg_left hlo ha.le
    linarith
  have hu1 : 0 < π / 4 + lat * π / 360 := by nlinarith
  have hu2 : π / 4 + lat * π / 360 < π / 2 := by nlinarith
  have htpos : 0 < Real.tan (π / 4 + lat * π / 360) :=
    Real.tan_pos_of_pos_of_lt_pi_div_two hu1 hu2
  have hexp : Real.exp (-(a * Real.log (Real.tan (π / 4 + lat * π / 360))) / a)
      = Real.tan (π / 2 - (π / 4 + lat * π / 360)) := by
    rw [Real.tan_pi_div_two_sub, neg_div, mul_div_cancel_left₀ _ ha.ne', Real.exp_neg,
      Real.exp_log htpos]
  have hatan : Real.arctan (Real.tan (π / 2 - (π / 4 + lat * π / 360)))
      = π / 2 - (π / 4 + lat * π / 360) :=
    Real.arctan_tan (by linarith) (by linarith)
  simp only [SphericalMercator.Forward, SphericalMercator.Inverse, List.getElem?_cons_zero,
    List.getElem?_cons_succ, Option.bind_eq_bind, Option.some_bind, Option.pure_def,
    if_neg hx1, if_neg hx2, if_neg hy1, if_neg hy2, List.getElem?_cons_zero]
  rw [harg, hexp, hatan]
  have hπ0 : π ≠ 0 := hπ.ne'
  congr 2
  · unfold d2r r2d; field_simp
  · unfold r2d; congr 1; field_simp; ring

/-! ## `Px` and `LL` at continuous zoom -/

/-- The continuous-zoom round trip on a map of positive size. -/
theorem LL_Px_float_of_pos (sm : SphericalMercator) (hsz : 0 < sm.sizef) (z lon lat : ℝ)
    (hlon2 : lon ≤ 180) (hlat : |lat| ≤ 85.05) :
    (sm.Px [lon, lat] (.float64 z)).bind (fun p => sm.LL p (.float64 z)) = some [lon, lat] := by
  obtain ⟨hb1, hb2⟩ := abs_le.mp hlat
  have hπ := Real.pi_pos
  obtain ⟨hf, hhalf, hlo, hhi⟩ := half_log_sin lat hlat
  have hS : 0 < sm.sizef * (2 : ℝ) ^ z := mul_pos hsz (Real.rpow_pos_of_pos (by norm_num) z)
  set S : ℝ := sm.sizef * (2 : ℝ) ^ z with hSdef
  have hu1 : -(π / 2) < π / 4 + lat * π / 360 := by nlinarith
  have hu2 : π / 4 + lat * π / 360 < π / 2 := by nlinarith
  have htpos : 0 < Real.tan (π / 4 + lat * π / 360) :=
    Real.tan_pos_of_pos_of_lt_pi_div_two (by nlinarith) hu2
  set T : ℝ := Real.log (Real.tan (π / 4 + lat * π / 360)) with hT
  have hx : ¬ (S / 2.0 + lon * (S / 360.0) > S) := by
    rw [not_lt]
    have : S / 2.0 + lon * (S / 360.0) = S * (1 / 2 + lon / 360) := by ring
    rw [this]
    have : S * (1 / 2 + lon / 360) ≤ S * 1 := mul_le_mul_of_nonneg_left (by linarith) hS.le
    linarith
  have hy : ¬ (S / 2.0 + 0.5 * Real.log ((1 + Real.sin (d2r * lat)) / (1 - Real.sin (d2r * lat)))
      * -(S / (2.0 * π)) > S) := by
    rw [not_lt, hhalf]
    have : S / 2.0 + T * -(S / (2.0 * π)) = S * (1 / 2 - T / (2 * π)) := by ring
    rw [this]
    have h1 : -T / (2 * π) ≤ 1 / 2 := by
      rw [div_le_iff₀ (by positivity)]; linarith
    have : S * (1 / 2 - T / (2 * π)) ≤ S * 1 :=
      mul_le_mul_of_nonneg_left (by have := h1; rw [neg_div] at this; linarith) hS.le
    linarith
  simp only [SphericalMercator.Px, SphericalMercator.LL, List.getElem?_cons_zero,
    List.getElem?_cons_succ, Option.bind_eq_bind, Option.some_bind, Option.pure_def, hf]
  rw [← hSdef, if_neg hx, if_neg hy, hhalf]
  have hS0 : S ≠ 0 := hS.ne'
  have hπ0 : π ≠ 0 := hπ.ne'
  have hg : (S / 2.0 + T * -(S / (2.0 * π)) - S / 2.0) / -(S / (2.0 * π)) = T := by
    field_simp
    ring
  have hl : (S / 2.0 + lon * (S / 360.0) - S / 2.0) / (S / 360.0) = lon := by
    field_simp
    ring
  rw [hg, hl, hT, Real.exp_log htpos, Real.arctan_tan hu1 hu2]
  congr 2
  unfold r2d
  field_simp
  ring

/-- C5. `LL` undoes `Px` at continuous zoom: for every tile size `s ≥ 1`, every
fractional zoom `z` and every `(lon, lat)` with `-180 ≤ lon ≤ 180` and
`|lat| < 85.05`, `LL (Px [lon, lat] z) z = [lon, lat]` exactly over the reals;
the projection may come from any state of the cache. -/
theorem LL_Px_float (c : Cache) (s : Int) (hs : 1 ≤ s) (z lon lat : ℝ)
    (_hlon1 : -180 ≤ lon) (hlon2 : lon ≤ 180) (hlat : |lat| < 85.05) :
    ((New c (some ⟨s⟩)).1.Px [lon, lat] (.float64 z)).bind
      (fun p => (New c (some ⟨s⟩)).1.LL p (.float64 z)) = some [lon, lat] := by
  have hsz : 0 < (New c (some ⟨s⟩)).1.sizef := by
    obtain ⟨h1, h2⟩ := New_size c (some ⟨s⟩)
    rw [h2, h1]
    exact_mod_cast (by omega : 0 < s)
  exact LL_Px_float_of_pos _ hsz z lon lat hlon2 hlat.le

/-! ## Saturation in `Forward` -/

/-- The two saturation tests of `Forward` on one component: the result lies in
`[-M, M]`, is the value when that is inside, and the nearer end otherwise. -/
theorem saturate_spec (M v : ℝ) (hM : 0 < M) :
    (-M ≤ (if (if v > M then M else v) < -M then -M else (if v > M then M else v)) ∧
      (if (if v > M then M else v) < -M then -M else (if v > M then M else v)) ≤ M) ∧
    (-M ≤ v ∧ v ≤ M →
      (if (if v > M then M else v) < -M then -M else (if v > M then M else v)) = v) ∧
    (M < v → (if (if v > M then M else v) < -M then -M else (if v > M then M else v)) = M) ∧
    (v < -M →
      (if (if v > M then M else v) < -M then -M else (if v > M then M else v)) = -M) := by
  refine ⟨?_, fun h => ?_, fun h => ?_, fun h => ?_⟩
  · split_ifs <;> constructor <;> linarith
  · split_ifs <;> linarith
  · split_ifs <;> linarith
  · split_ifs <;> linarith

/-- The two saturation tests on a real value. -/
theorem saturate_real (M v : ℝ) :
    (if Float64.lt (if Float64.gt (.real v) M then .real M else .real v) (-M)
      then Float64.real (-M) else (if Float64.gt (.real v) M then .real M else .real v))
    = .real (if (if v > M then M else v) < -M then -M else (if v > M then M else v)) := by
  by_cases h1 : v > M
  · by_cases h2 : M < -M <;> simp [Float64.gt, Float64.lt, h1, h2]
  · by_cases h2 : v < -M <;> simp [Float64.gt, Float64.lt, h1, h2]

/-- `ForwardIEEE` on a pair, with the first component worked out. -/
theorem ForwardIEEE_pair (sm : SphericalMercator) (lon lat : ℝ) :
    sm.ForwardIEEE [lon, lat] = some
      [.real (if (if a * lon * π / 180 > maxExtent then maxExtent else a * lon * π / 180)
            < -maxExtent then -maxExtent
          else (if a * lon * π / 180 > maxExtent then maxExtent else a * lon * π / 180)),
       (if Float64.lt (if Float64.gt (Float64.scale a (Log (Tan (π / 4 + lat * π / 360))))
              maxExtent then .real maxExtent
            else Float64.scale a (Log (Tan (π / 4 + lat * π / 360)))) (-maxExtent)
          then Float64.real (-maxExtent)
          else (if Float64.gt (Float64.scale a (Log (Tan (π / 4 + lat * π / 360)))) maxExtent
            then .real maxExtent
            else Float64.scale a (Log (Tan (π / 4 + lat * π / 360)))))] := by
  have hx : a * lon * d2r = a * lon * π / 180 := by unfold d2r; ring
  have hy : π * 0.25 + 0.5 * lat * d2r = π / 4 + lat * π / 360 := by unfold d2r; ring
  simp only [SphericalMercator.ForwardIEEE, List.getElem?_cons_zero, List.getElem?_cons_succ,
    Option.bind_eq_bind, Option.some_bind, Option.pure_def, hx, hy, saturate_real]

/-- Strictly between the poles `ForwardIEEE` is `Forward`: the tangent is positive and
every value is a real number. -/
theorem ForwardIEEE_eq_Forward (sm : SphericalMercator) (lon lat : ℝ) (h1 : -90 < lat)
    (h2 : lat < 90) :
    sm.ForwardIEEE [lon, lat] = (sm.Forward [lon, lat]).map (List.map Float64.real) := by
  have hπ := Real.pi_pos
  have hu1 : 0 < π / 4 + lat * π / 360 := by nlinarith
  have hu2 : π / 4 + lat * π / 360 < π / 2 := by nlinarith
  have hcos : Real.cos (π / 4 + lat * π / 360) ≠ 0 :=
    (Real.cos_pos_of_mem_Ioo ⟨by linarith, hu2⟩).ne'
  have htan : 0 < Real.tan (π / 4 + lat * π / 360) :=
    Real.tan_pos_of_pos_of_lt_pi_div_two hu1 hu2
  have hx : a * lon * d2r = a * lon * π / 180 := by unfold d2r; ring
  have hy : π * 0.25 + 0.5 * lat * d2r = π / 4 + lat * π / 360 := by unfold d2r; ring
  rw [ForwardIEEE_pair]
  simp only [SphericalMercator.Forward, List.getElem?_cons_zero, List.getElem?_cons_succ,
    Option.bind_eq_bind, Option.some_bind, Option.pure_def, hx, hy, Option.map_some',
    List.map_cons, List.map_nil, Tan, if_neg hcos, Log, if_neg (not_lt.mpr htan.le),
    if_neg htan.ne', Float64.scale, saturate_real]

/-- C7 (amended). `Forward` is the spherical-Mercator formula saturated at the maximum
extent wherever the tangent `tan (π / 4 + lat * π / 360)` is not negative, which
includes every latitude from pole to pole. For every input `[lon, lat]` the first
component lies in `[-maxExtent, maxExtent]`: it is `a * lon * π / 180` when that value
is inside the interval, `maxExtent` when the value is above and `-maxExtent` when it
is below, so `lon = 240` gives exactly `maxExtent` and `lon = -240` exactly
`-maxExtent`. Away from the poles of the tangent, the second component is `NaN` exactly
when the tangent is negative; when the tangent is positive it is
`a * ln (tan (π / 4 + lat * π / 360))` saturated in the same way, and when the tangent is
zero it is `-maxExtent`. At `lat = 90` it is `maxExtent`, at `lat = -90` it is
`-maxExtent`, and for every `-90 ≤ lat ≤ 90` it is a real number in
`[-maxExtent, maxExtent]`. -/
theorem ForwardIEEE_saturates (sm : SphericalMercator) (lon lat : ℝ) :
    ∃ (X : ℝ) (V : Float64), sm.ForwardIEEE [lon, lat] = some [.real X, V] ∧
      (-maxExtent ≤ X ∧ X ≤ maxExtent) ∧
      ((-maxExtent ≤ a * lon * π / 180 ∧ a * lon * π / 180 ≤ maxExtent →
          X = a * lon * π / 180) ∧
        (maxExtent < a * lon * π / 180 → X = maxExtent) ∧
        (a * lon * π / 180 < -maxExtent → X = -maxExtent)) ∧
      (lon = 240 → X = maxExtent) ∧ (lon = -240 → X = -maxExtent) ∧
      (Real.cos (π / 4 + lat * π / 360) ≠ 0 →
        (V = .nan ↔ Real.tan (π / 4 + lat * π / 360) < 0)) ∧
      (Real.cos (π / 4 + lat * π / 360) ≠ 0 → 0 ≤ Real.tan (π / 4 + lat * π / 360) →
        ∃ Y : ℝ, V = .real Y ∧ (-maxExtent ≤ Y ∧ Y ≤ maxExtent) ∧
          (0 < Real.tan (π / 4 + lat * π / 360) →
            (-maxExtent ≤ a * Real.log (Real.tan (π / 4 + lat * π / 360)) ∧
                a * Real.log (Real.tan (π / 4 + lat * π / 360)) ≤ maxExtent →
                Y = a * Real.log (Real.tan (π / 4 + lat * π / 360))) ∧
            (maxExtent < a * Real.log (Real.tan (π / 4 + lat * π / 360)) → Y = maxExtent) ∧
            (a * Real.log (Real.tan (π / 4 + lat * π / 360)) < -maxExtent →
              Y = -maxExtent)) ∧
          (Real.tan (π / 4 + lat * π / 360) = 0 → Y = -maxExtent)) ∧
      (lat = 90 → V = .real maxExtent) ∧ (lat = -90 → V = .real (-maxExtent)) ∧
      (-90 ≤ lat ∧ lat ≤ 90 → ∃ Y : ℝ, V = .real Y ∧ -maxExtent ≤ Y ∧ Y ≤ maxExtent) := by
  have hπ := Real.pi_pos
  have hM : (0 : ℝ) < maxExtent := by unfold maxExtent; norm_num
  have hM1 : ¬ (maxExtent < 0) := not_lt.mpr hM.le
  have ha : (0 : ℝ) < a := by unfold a; norm_num
  have h240 : maxExtent < a * 240 * π / 180 := by
    unfold maxExtent a
    have := Real.pi_gt_d2
    norm_num
    linarith
  obtain ⟨hX1, hX2, hX3, hX4⟩ := saturate_spec maxExtent (a * lon * π / 180) hM
  -- the second component in the three cases of the tangent
  have hpos : Real.cos (π / 4 + lat * π / 360) ≠ 0 → 0 < Real.tan (π / 4 + lat * π / 360) →
      (if Float64.lt (if Float64.gt (Float64.scale a (Log (Tan (π / 4 + lat * π / 360))))
              maxExtent then .real maxExtent
            else Float64.scale a (Log (Tan (π / 4 + lat * π / 360)))) (-maxExtent)
          then Float64.real (-maxExtent)
          else (if Float64.gt (Float64.scale a (Log (Tan (π / 4 + lat * π / 360)))) maxExtent
            then .real maxExtent
            else Float64.scale a (Log (Tan (π / 4 + lat * π / 360)))))
        = .real (if (if a * Real.log (Real.tan (π / 4 + lat * π / 360)) > maxExtent
              then maxExtent else a * Real.log (Real.tan (π / 4 + lat * π / 360))) < -maxExtent
            then -maxExtent
            else (if a * Real.log (Real.tan (π / 4 + lat * π / 360)) > maxExtent
              then maxExtent else a * Real.log (Real.tan (π / 4 + lat * π / 360)))) := by
    intro hcos htan
    simp only [Tan, if_neg hcos, Log, if_neg (not_lt.mpr htan.le), if_neg htan.ne',
      Float64.scale, saturate_real]
  have hzero : Real.cos (π / 4 + lat * π / 360) ≠ 0 → Real.tan (π / 4 + lat * π / 360) = 0 →
      (if Float64.lt (if Float64.gt (Float64.scale a (Log (Tan (π / 4 + lat * π / 360))))
              maxExtent then .real maxExtent
            else Float64.scale a (Log (Tan (π / 4 + lat * π / 360)))) (-maxExtent)
          then Float64.real (-maxExtent)
          else (if Float64.gt (Float64.scale a (Log (Tan (π / 4 + lat * π / 360)))) maxExtent
            then .real maxExtent
            else Float64.scale a (Log (Tan (π / 4 + lat * π / 360)))))
        = .real (-maxExtent) := by
    intro hcos htan
    simp [Tan, hcos, Log, htan, Float64.scale, ha, Float64.gt, Float64.lt]
  have hneg : Real.cos (π / 4 + lat * π / 360) ≠ 0 → Real.tan (π / 4 + lat * π / 360) < 0 →
      (if Float64.lt (if Float64.gt (Float64.scale a (Log (Tan (π / 4 + lat * π / 360))))
              maxExtent then .real maxExtent
            else Float64.scale a (Log (Tan (π / 4 + lat * π / 360)))) (-maxExtent)
          then Float64.real (-maxExtent)
          else (if Float64.gt (Float64.scale a (Log (Tan (π / 4 + lat * π / 360)))) maxExtent
            then .real maxExtent
            else Float64.scale a (Log (Tan (π / 4 + lat * π / 360)))))
        = .nan := by
    intro hcos htan
    simp [Tan, hcos, Log, htan, Float64.scale, Float64.gt, Float64.lt]
  have hpole : Real.cos (π / 4 + lat * π / 360) = 0 → 0 < π / 4 + lat * π / 360 →
      (if Float64.lt (if Float64.gt (Float64.scale a (Log (Tan (π / 4 + lat * π / 360))))
              maxExtent then .real maxExtent
            else Float64.scale a (Log (Tan (π / 4 + lat * π / 360)))) (-maxExtent)
          then Float64.real (-maxExtent)
          else (if Float64.gt (Float64.scale a (Log (Tan (π / 4 + lat * π / 360)))) maxExtent
            then .real maxExtent
            else Float64.scale a (Log (Tan (π / 4 + lat * π / 360)))))
        = .real maxExtent := by
    intro hcos hu
    simp [Tan, hcos, hu, Log, Float64.scale, ha, Float64.gt, Float64.lt, hM, hM1]
  have hreal : Real.cos (π / 4 + lat * π / 360) ≠ 0 → 0 ≤ Real.tan (π / 4 + lat * π / 360) →
      ∃ Y : ℝ, (if Float64.lt (if Float64.gt (Float64.scale a (Log (Tan (π / 4 + lat * π / 360))))
              maxExtent then .real maxExtent
            else Float64.scale a (Log (Tan (π / 4 + lat * π / 360)))) (-maxExtent)
          then Float64.real (-maxExtent)
          else (if Float64.gt (Float64.scale a (Log (Tan (π / 4 + lat * π / 360)))) maxExtent
            then .real maxExtent
            else Float64.scale a (Log (Tan (π / 4 + lat * π / 360))))) = .real Y ∧
        (-maxExtent ≤ Y ∧ Y ≤ maxExtent) ∧
        (0 < Real.tan (π / 4 + lat * π / 360) →
          (-maxExtent ≤ a * Real.log (Real.tan (π / 4 + lat * π / 360)) ∧
              a * Real.log (Real.tan (π / 4 + lat * π / 360)) ≤ maxExtent →
              Y = a * Real.log (Real.tan (π / 4 + lat * π / 360))) ∧
          (maxExtent < a * Real.log (Real.tan (π / 4 + lat * π / 360)) → Y = maxExtent) ∧
          (a * Real.log (Real.tan (π / 4 + lat * π / 360)) < -maxExtent →
            Y = -maxExtent)) ∧
        (Real.tan (π / 4 + lat * π / 360) = 0 → Y = -maxExtent) := by
    intro hcos htan
    rcases eq_or_lt_of_le htan with h0 | hp
    · exact ⟨-maxExtent, hzero hcos h0.symm, ⟨le_rfl, by linarith⟩,
        fun h => absurd h0.symm h.ne', fun _ => rfl⟩
    · obtain ⟨hY1, hY2, hY3, hY4⟩ :=
        saturate_spec maxExtent (a * Real.log (Real.tan (π / 4 + lat * π / 360))) hM
      exact ⟨_, hpos hcos hp, hY1, fun _ => ⟨hY2, hY3, hY4⟩, fun h => absurd h hp.ne'⟩
  have hn90 : lat = 90 → Real.cos (π / 4 + lat * π / 360) = 0 ∧
      0 < π / 4 + lat * π / 360 := by
    rintro rfl
    have : π / 4 + 90 * π / 360 = π / 2 := by ring
    rw [this, Real.cos_pi_div_two]
    exact ⟨rfl, by positivity⟩
  have hs90 : lat = -90 → Real.cos (π / 4 + lat * π / 360) ≠ 0 ∧
      Real.tan (π / 4 + lat * π / 360) = 0 := by
    rintro rfl
    have : π / 4 + -90 * π / 360 = 0 := by ring
    rw [this, Real.cos_zero, Real.tan_zero]
    exact ⟨one_ne_zero, rfl⟩
  refine ⟨_, _, ForwardIEEE_pair sm lon lat, hX1, ⟨hX2, hX3, hX4⟩, ?_, ?_, ?_, hreal, ?_, ?_, ?_⟩
  · rintro rfl
    exact hX3 h240
  · rintro rfl
    apply hX4
    have : a * (-240) * π / 180 = -(a * 240 * π / 180) := by ring
    linarith
  · intro hcos
    constructor
    · intro hV
      by_contra hn
      obtain ⟨Y, hY, -⟩ := hreal hcos (not_lt.mp hn)
      rw [hY] at hV
      exact Float64.noConfusion hV
    · exact hneg hcos
  · intro h
    exact hpole (hn90 h).1 (hn90 h).2
  · intro h
    exact hzero (hs90 h).1 (hs90 h).2
  · rintro ⟨h1, h2⟩
    rcases eq_or_lt_of_le h2 with h90 | hlt
    · exact ⟨maxExtent, hpole (hn90 h90).1 (hn90 h90).2, by linarith, le_rfl⟩
    · have hu1 : 0 ≤ π / 4 + lat * π / 360 := by nlinarith
      have hu2 : π / 4 + lat * π / 360 < π / 2 := by nlinarith
      have hcos : Real.cos (π / 4 + lat * π / 360) ≠ 0 :=
        (Real.cos_pos_of_mem_Ioo ⟨by linarith, hu2⟩).ne'
      have htan : 0 ≤ Real.tan (π / 4 + lat * π / 360) :=
        Real.tan_nonneg_of_nonneg_of_le_pi_div_two hu1 hu2.le
      obtain ⟨Y, hY, hb, -⟩ := hreal hcos htan
      exact ⟨Y, hY, hb.1, hb.2⟩

/-- C7 (witness). The north-east corner of `TestExtents`, `[240, 90]`, on the projection
of `New(nil)`: both components are exactly `maxExtent`. -/
theorem ForwardIEEE_saturates_witness :
    (New cache none).1.ForwardIEEE [240, 90] = some [.real maxExtent, .real maxExtent] := by
  obtain ⟨X, V, h, -, -, hX, -, -, -, hV, -⟩ := ForwardIEEE_saturates (New cache none).1 240 90
  rw [h, hX rfl, hV rfl]

/-- C7 (counterexample). Beyond the pole, at `lat = 100`, the tangent is negative, its
logarithm is `NaN`, neither saturation test fires and the second component that
`Forward` returns is `NaN`: not a value in `[-maxExtent, maxExtent]`. -/
theorem Forward_beyond_pole_nan :
    (New cache none).1.ForwardIEEE [0, 100] = some [.real 0, .nan] ∧
      ¬ ∃ X Y : ℝ, (New cache none).1.ForwardIEEE [0, 100] = some [.real X, .real Y] ∧
        (-maxExtent ≤ X ∧ X ≤ maxExtent) ∧ (-maxExtent ≤ Y ∧ Y ≤ maxExtent) := by
  have hπ := Real.pi_pos
  have hM : (0 : ℝ) < maxExtent := by unfold maxExtent; norm_num
  have hu1 : π / 2 < π / 4 + 100 * π / 360 := by nlinarith
  have hu2 : π / 4 + 100 * π / 360 < π := by nlinarith
  have hcos : Real.cos (π / 4 + 100 * π / 360) < 0 :=
    Real.cos_neg_of_pi_div_two_lt_of_lt hu1 (by linarith)
  have hsin : 0 < Real.sin (π / 4 + 100 * π / 360) :=
    Real.sin_pos_of_pos_of_lt_pi (by linarith) hu2
  have htan : Real.tan (π / 4 + 100 * π / 360) < 0 := by
    rw [Real.tan_eq_sin_div_cos]; exact div_neg_of_pos_of_neg hsin hcos
  have hF : (New cache none).1.ForwardIEEE [0, 100] = some [.real 0, .nan] := by
    rw [ForwardIEEE_pair]
    have hM1 : ¬ (maxExtent < 0) := not_lt.mpr hM.le
    have hM2 : ¬ ((0 : ℝ) < -maxExtent) := by linarith
    simp [Tan, hcos.ne, Log, htan, Float64.scale, Float64.gt, Float64.lt, hM1, hM2]
  refine ⟨hF, ?_⟩
  rintro ⟨X, Y, h, -⟩
  rw [hF] at h
  simp at h

/-! ## `BBox` and `XYZ` -/

/-- C9. `BBox` returns the geographic rectangle of the tile, independent of the tile
size: on a freshly built projection of tile size `s ≥ 1`, at integer zoom `z ≤ 29`
and for every tile `(x, y)`, `BBox x y z tmsStyle "WGS84"` is
`[360 x / 2^z - 180, G (π (1 - 2 (y' + 1) / 2^z)), 360 (x + 1) / 2^z - 180,
G (π (1 - 2 y' / 2^z))]` with `y' = 2^z - 1 - y` when `tmsStyle` and `y' = y`
otherwise, and `G t = (180 / π) (2 atan (e^t) - π / 2)`; west is below east and
south below north. -/
theorem BBox_formula (c : Cache) (s : Int) (hs : 1 ≤ s) (hc : c s = none) (z : Nat)
    (hz : z ≤ 29) (x y : ℝ) (tmsStyle : Bool) :
    ∃ w so e n : ℝ,
      (New c (some ⟨s⟩)).1.BBox x y (.int z) tmsStyle "WGS84" = some [w, so, e, n] ∧
      w = 360 * x / 2 ^ z - 180 ∧
      so = (180 / π) * (2 * Real.arctan (Real.exp
        (π * (1 - 2 * ((if tmsStyle then (2 : ℝ) ^ z - 1 - y else y) + 1) / 2 ^ z))) - π / 2) ∧
      e = 360 * (x + 1) / 2 ^ z - 180 ∧
      n = (180 / π) * (2 * Real.arctan (Real.exp
        (π * (1 - 2 * (if tmsStyle then (2 : ℝ) ^ z - 1 - y else y) / 2 ^ z))) - π / 2) ∧
      w < e ∧ so < n := by
  have hπ := Real.pi_pos
  have hs0 : (0 : ℝ) < (s : ℝ) := by exact_mod_cast (by omega : 0 < s)
  have hp : (0 : ℝ) < (2 : ℝ) ^ z := by positivity
  have hsz : (New c (some ⟨s⟩)).1.sizef = (s : ℝ) := (New_fresh c s hc).2.1
  have hsrs : ¬ (("WGS84" : String) = "900913") := by decide
  set y' : ℝ := if tmsStyle then (2 : ℝ) ^ z - 1 - y else y with hy'
  have hyy : (if tmsStyle = true then (2 : ℝ) ^ zz (.int (z : Int)) - 1 - y else y) = y' := by
    rw [two_pow_zz]
  simp only [SphericalMercator.BBox, hyy, hsz, LL_int_fresh c s hc z hz, hsrs,
    Option.bind_eq_bind, Option.some_bind, Option.pure_def, if_false, List.nil_append,
    List.cons_append, List.singleton_append]
  have hg : ∀ t : ℝ, (t * (s : ℝ) - (s : ℝ) * 2 ^ z / 2) / -((s : ℝ) * 2 ^ z / (2 * π))
      = π * (1 - 2 * t / 2 ^ z) := by
    intro t; field_simp; ring
  have hl : ∀ t : ℝ, (t * (s : ℝ) - (s : ℝ) * 2 ^ z / 2) / ((s : ℝ) * 2 ^ z / 360)
      = 360 * t / 2 ^ z - 180 := by
    intro t; field_simp; ring
  have hG : ∀ t : ℝ, r2d * (2.0 * Real.arctan (Real.exp t) - 0.5 * π)
      = (180 / π) * (2 * Real.arctan (Real.exp t) - π / 2) := by
    intro t; unfold r2d; norm_num; left; ring
  refine ⟨_, _, _, _, rfl, ?_, ?_, ?_, ?_, ?_, ?_⟩
  · rw [hl]
  · rw [hg, hG]
  · rw [hl]
  · rw [hg, hG]
  · rw [hl, hl]
    have : 360 * x / 2 ^ z < 360 * (x + 1) / 2 ^ z :=
      div_lt_div_of_pos_right (by linarith) hp
    linarith
  · rw [hg, hg, hG, hG]
    have h1 : π * (1 - 2 * (y' + 1) / 2 ^ z) < π * (1 - 2 * y' / 2 ^ z) := by
      have : 2 * y' / 2 ^ z < 2 * (y' + 1) / 2 ^ z :=
        div_lt_div_of_pos_right (by linarith) hp
      nlinarith
    have h2 := Real.arctan_strictMono (Real.exp_lt_exp.mpr h1)
    have h3 : (0 : ℝ) < 180 / π := by positivity
    nlinarith

theorem minZero_pair (p q : ℝ) :
    minZero [p, q] = some (if (if q < p then q else p) < 0 then 0 else (if q < p then q else p)) := by
  simp only [minZero, List.getElem?_cons_zero, Option.bind_eq_bind, Option.some_bind,
    List.foldl_cons, List.foldl_nil, lt_self_iff_false, if_false, Option.pure_def]
  split_ifs <;> rfl

theorem max_pair (p q : ℝ) : max [p, q] = some (if q > p then q else p) := by
  simp only [max, List.getElem?_cons_zero, Option.bind_eq_bind, Option.some_bind,
    List.foldl_cons, List.foldl_nil, gt_iff_lt, lt_self_iff_false, if_false, Option.pure_def]

/-- `XYZ` on a four-element bbox that needs no reprojection, from the pixels of
its two corners. -/
theorem XYZ_eq (sm : SphericalMercator) (w so e n : ℝ) (zoom : Zoom) (tmsStyle : Bool)
    (srs : String) (hsrs : srs ≠ "900913") (x1 y1 x2 y2 : ℝ)
    (h1 : sm.Px [w, so] zoom = some [x1, y1]) (h2 : sm.Px [e, n] zoom = some [x2, y2]) :
    sm.XYZ [w, so, e, n] zoom tmsStyle srs = some
      { MinX := (if (if Floor ((x2 - 1) / sm.sizef) < Floor (x1 / sm.sizef)
            then Floor ((x2 - 1) / sm.sizef) else Floor (x1 / sm.sizef)) < 0 then 0
          else (if Floor ((x2 - 1) / sm.sizef) < Floor (x1 / sm.sizef)
            then Floor ((x2 - 1) / sm.sizef) else Floor (x1 / sm.sizef)))
        MaxX := (if Floor ((x2 - 1) / sm.sizef) > Floor (x1 / sm.sizef)
            then Floor ((x2 - 1) / sm.sizef) else Floor (x1 / sm.sizef))
        MinY := (if tmsStyle then ((2 : ℝ) ^ zz zoom - 1) -
            (if Floor ((y1 - 1) / sm.sizef) > Floor (y2 / sm.sizef)
              then Floor ((y1 - 1) / sm.sizef) else Floor (y2 / sm.sizef))
          else (if (if Floor ((y1 - 1) / sm.sizef) < Floor (y2 / sm.sizef)
            then Floor ((y1 - 1) / sm.sizef) else Floor (y2 / sm.sizef)) < 0 then 0
          else (if Floor ((y1 - 1) / sm.sizef) < Floor (y2 / sm.sizef)
            then Floor ((y1 - 1) / sm.sizef) else Floor (y2 / sm.sizef))))
        MaxY := (if tmsStyle then ((2 : ℝ) ^ zz zoom - 1) -
            (if (if Floor ((y1 - 1) / sm.sizef) < Floor (y2 / sm.sizef)
              then Floor ((y1 - 1) / sm.sizef) else Floor (y2 / sm.sizef)) < 0 then 0
            else (if Floor ((y1 - 1) / sm.sizef) < Floor (y2 / sm.sizef)
              then Floor ((y1 - 1) / sm.sizef) else Floor (y2 / sm.sizef)))
          else (if Floor ((y1 - 1) / sm.sizef) > Floor (y2 / sm.sizef)
              then Floor ((y1 - 1) / sm.sizef) else Floor (y2 / sm.sizef))) } := by
  unfold SphericalMercator.XYZ
  rw [if_neg hsrs]
  simp only [Option.pure_def, bind, Option.bind, List.getElem?_cons_zero,
    List.getElem?_cons_succ, h1, h2, minZero_pair, max_pair]
  cases tmsStyle <;> simp

/-- On a freshly built projection with positive tile size, `Px` at integer zoom
maps the lon/lat that `LL` computes from a whole pixel inside the map back to that
pixel. -/
theorem Px_of_LL_int (c : Cache) (s : Int) (hs : 1 ≤ s) (hc : c s = none) (z : Nat)
    (hz : z ≤ 29) (px py : ℝ) (hpx : ∃ m : Int, px = (m : ℝ)) (hpy : ∃ n : Int, py = (n : ℝ))
    (hx : px ≤ (s : ℝ) * 2 ^ z) (hy0 : 0 ≤ py) (hy : py ≤ (s : ℝ) * 2 ^ z) :
    (New c (some ⟨s⟩)).1.Px
      [(px - (s : ℝ) * 2 ^ z / 2) / ((s : ℝ) * 2 ^ z / 360),
       r2d * (2.0 * Real.arctan (Real.exp
          ((py - (s : ℝ) * 2 ^ z / 2) / -((s : ℝ) * 2 ^ z / (2 * π)))) - 0.5 * π)] (.int z)
      = some [px, py] := by
  have hπ := Real.pi_pos
  have hs0 : (0 : ℝ) < (s : ℝ) := by exact_mod_cast (by omega : 0 < s)
  have hp : (0 : ℝ) < (2 : ℝ) ^ z := by positivity
  have hS : (0 : ℝ) < (s : ℝ) * 2 ^ z := by positivity
  set S : ℝ := (s : ℝ) * 2 ^ z with hSdef
  set g : ℝ := (py - S / 2) / -(S / (2 * π)) with hg
  have hgval : g = π * (1 - 2 * py / S) := by
    rw [hg]; field_simp; ring
  have hq : py / S ≤ 1 := by rw [div_le_one hS]; exact hy
  have hq0 : 0 ≤ py / S := by positivity
  have hglo : -π ≤ g := by rw [hgval]; nlinarith [mul_div_assoc 2 py S]
  have hghi : g ≤ π := by rw [hgval]; nlinarith [mul_div_assoc 2 py S]
  have hang : d2r * (r2d * (2.0 * Real.arctan (Real.exp g) - 0.5 * π))
      = 2 * Real.arctan (Real.exp g) - π / 2 := by
    unfold d2r r2d; field_simp; ring
  have hhalf := half_log_gd g hglo hghi
  simp only at hhalf
  rw [Px_int_fresh c s hc z hz, ← hSdef, hang, hhalf]
  have hxv : S / 2 + (px - S / 2) / (S / 360) * (S / 360) = px := by
    field_simp
    ring
  have hyv : S / 2 + g * -(S / (2 * π)) = py := by
    rw [hg]; field_simp
    ring
  obtain ⟨m, rfl⟩ := hpx
  obtain ⟨n, rfl⟩ := hpy
  rw [hxv, hyv, Round_intCast, Round_intCast, if_neg (not_lt.mpr hx), if_neg (not_lt.mpr hy)]


/-- The tile index of the first pixel of tile `m`. -/
theorem Floor_mul_div (m s : Int) (hs : 1 ≤ s) : Floor ((m : ℝ) * (s : ℝ) / (s : ℝ)) = (m : ℝ) := by
  have hs0 : (0 : ℝ) < (s : ℝ) := by exact_mod_cast (by omega : 0 < s)
  unfold Floor
  rw [mul_div_assoc, div_self hs0.ne', mul_one, Int.floor_intCast]

/-- The tile index of the pixel before the first pixel of tile `m + 1`. -/
theorem Floor_mul_sub_one_div (m s : Int) (hs : 1 ≤ s) :
    Floor ((((m : ℝ) + 1) * (s : ℝ) - 1) / (s : ℝ)) = (m : ℝ) := by
  have hs0 : (0 : ℝ) < (s : ℝ) := by exact_mod_cast (by omega : 0 < s)
  have hs1 : (1 : ℝ) ≤ (s : ℝ) := by exact_mod_cast hs
  unfold Floor
  have h : ⌊(((m : ℝ) + 1) * (s : ℝ) - 1) / (s : ℝ)⌋ = m := by
    rw [Int.floor_eq_iff]
    constructor
    · rw [le_div_iff₀ hs0]; nlinarith
    · rw [div_lt_iff₀ hs0]; nlinarith
  rw [h]

/-- C1. `XYZ` undoes `BBox` on a single tile: on a freshly built projection of tile
size `s ≥ 1`, for every integer zoom `z` in `[0, 29]`, all integers `x`, `y` with
`0 ≤ x < 2^z` and `0 ≤ y < 2^z` and either value of `tmsStyle`, `BBox` returns a bbox
and `XYZ` maps that bbox to `Bounds{MinX: x, MinY: y, MaxX: x, MaxY: y}`. -/
theorem XYZ_BBox (c : Cache) (s : Int) (hs : 1 ≤ s) (hc : c s = none) (z : Nat) (hz : z ≤ 29)
    (x y : Int) (hx0 : 0 ≤ x) (hx : x < 2 ^ z) (hy0 : 0 ≤ y) (hy : y < 2 ^ z)
    (tmsStyle : Bool) :
    ((New c (some ⟨s⟩)).1.BBox (x : ℝ) (y : ℝ) (.int z) tmsStyle "WGS84").bind
        (fun b => (New c (some ⟨s⟩)).1.XYZ b (.int z) tmsStyle "WGS84")
      = some { MinX := (x : ℝ), MinY := (y : ℝ), MaxX := (x : ℝ), MaxY := (y : ℝ) } := by
  have hs0 : (0 : ℝ) < (s : ℝ) := by exact_mod_cast (by omega : 0 < s)
  have hsz : (New c (some ⟨s⟩)).1.sizef = (s : ℝ) := (New_fresh c s hc).2.1
  have hsrs : ¬ (("WGS84" : String) = "900913") := by decide
  have hpz : (0 : ℝ) < (2 : ℝ) ^ z := by positivity
  -- the row of the tile in the XYZ scheme
  obtain ⟨k, hk0, hk1, hyk, hky⟩ : ∃ k : Int, 0 ≤ k ∧ k < 2 ^ z ∧
      (if tmsStyle = true then (2 : ℝ) ^ zz (.int (z : Int)) - 1 - (y : ℝ) else (y : ℝ)) = (k : ℝ) ∧
      (if tmsStyle = true then (2 : ℝ) ^ zz (.int (z : Int)) - 1 - (k : ℝ) else (k : ℝ)) = (y : ℝ) := by
    cases tmsStyle with
    | false => exact ⟨y, hy0, hy, by simp, by simp⟩
    | true =>
      refine ⟨2 ^ z - 1 - y, by omega, by omega, ?_, ?_⟩
      · rw [two_pow_zz]; push_cast; simp
      · rw [two_pow_zz]; push_cast; simp
  have hxr : (x : ℝ) + 1 ≤ (2 : ℝ) ^ z := by exact_mod_cast (by omega : x + 1 ≤ 2 ^ z)
  have hkr : (k : ℝ) + 1 ≤ (2 : ℝ) ^ z := by exact_mod_cast (by omega : k + 1 ≤ 2 ^ z)
  have hk0r : (0 : ℝ) ≤ (k : ℝ) := by exact_mod_cast hk0
  have hx0r : (0 : ℝ) ≤ (x : ℝ) := by exact_mod_cast hx0
  have hP1 := Px_of_LL_int c s hs hc z hz ((x : ℝ) * (s : ℝ)) (((k : ℝ) + 1) * (s : ℝ))
    ⟨x * s, by push_cast; ring⟩ ⟨(k + 1) * s, by push_cast; ring⟩
    (by nlinarith) (by positivity) (by nlinarith)
  have hP2 := Px_of_LL_int c s hs hc z hz (((x : ℝ) + 1) * (s : ℝ)) ((k : ℝ) * (s : ℝ))
    ⟨(x + 1) * s, by push_cast; ring⟩ ⟨k * s, by push_cast; ring⟩
    (by nlinarith) (by positivity) (by nlinarith)
  have hB : (New c (some ⟨s⟩)).1.BBox (x : ℝ) (y : ℝ) (.int z) tmsStyle "WGS84" = some
      [((x : ℝ) * (s : ℝ) - (s : ℝ) * 2 ^ z / 2) / ((s : ℝ) * 2 ^ z / 360),
       r2d * (2.0 * Real.arctan (Real.exp
          ((((k : ℝ) + 1) * (s : ℝ) - (s : ℝ) * 2 ^ z / 2) / -((s : ℝ) * 2 ^ z / (2 * π)))) - 0.5 * π),
       (((x : ℝ) + 1) * (s : ℝ) - (s : ℝ) * 2 ^ z / 2) / ((s : ℝ) * 2 ^ z / 360),
       r2d * (2.0 * Real.arctan (Real.exp
          (((k : ℝ) * (s : ℝ) - (s : ℝ) * 2 ^ z / 2) / -((s : ℝ) * 2 ^ z / (2 * π)))) - 0.5 * π)] := by
    simp only [SphericalMercator.BBox, hyk, hsz, LL_int_fresh c s hc z hz, hsrs,
      Option.bind_eq_bind, Option.some_bind, Option.pure_def, if_false, List.nil_append,
      List.cons_append, List.singleton_append]
  rw [hB, Option.some_bind, XYZ_eq _ _ _ _ _ _ tmsStyle "WGS84" hsrs _ _ _ _ hP1 hP2, hsz,
    Floor_mul_div x s hs, Floor_mul_div k s hs, Floor_mul_sub_one_div x s hs,
    Floor_mul_sub_one_div k s hs]
  have h1 : ¬ ((x : ℝ) < 0) := not_lt.mpr hx0r
  have h2 : ¬ ((k : ℝ) < 0) := not_lt.mpr hk0r
  simp only [lt_self_iff_false, gt_iff_lt, if_false, h1, h2, hky]

/-! ## `Px` and `LL` at integer zoom -/

/-- `Round` returns a whole number. -/
theorem Round_int (x : ℝ) : ∃ n : Int, Round x = (n : ℝ) := by
  unfold Round
  split_ifs
  · exact ⟨-⌊-x + 1 / 2⌋, by push_cast; ring⟩
  · exact ⟨⌊x + 1 / 2⌋, rfl⟩

/-- The pixel that `Px` computes at integer zoom on a freshly built projection of
positive tile size: whole numbers, at most the map size, the row not negative when
the latitude is within `|lat| ≤ 85.05` and the column not negative when the
longitude is at least `-180`. -/
theorem Px_int_props (c : Cache) (s : Int) (hs : 1 ≤ s) (hc : c s = none) (z : Nat)
    (hz : z ≤ 29) (lon lat : ℝ) :
    ∃ X Y : ℝ, (New c (some ⟨s⟩)).1.Px [lon, lat] (.int z) = some [X, Y] ∧
      (∃ m : Int, X = (m : ℝ)) ∧ (∃ n : Int, Y = (n : ℝ)) ∧
      X ≤ (s : ℝ) * 2 ^ z ∧ Y ≤ (s : ℝ) * 2 ^ z ∧
      (-180 ≤ lon → 0 ≤ X) ∧ (|lat| ≤ 85.05 → 0 ≤ Y) := by
  have hπ := Real.pi_pos
  have hs0 : (0 : ℝ) < (s : ℝ) := by exact_mod_cast (by omega : 0 < s)
  have hS : (0 : ℝ) < (s : ℝ) * 2 ^ z := by positivity
  have hSint : ∃ m : Int, (s : ℝ) * 2 ^ z = (m : ℝ) := ⟨s * 2 ^ z, by push_cast; ring⟩
  rw [Px_int_fresh c s hc z hz]
  set S : ℝ := (s : ℝ) * 2 ^ z with hSdef
  refine ⟨_, _, rfl, ?_, ?_, ?_, ?_, ?_, ?_⟩
  · split_ifs
    · exact hSint
    · exact Round_int _
  · split_ifs
    · exact hSint
    · exact Round_int _
  · split_ifs with h
    · exact le_rfl
    · exact not_lt.mp h
  · split_ifs with h
    · exact le_rfl
    · exact not_lt.mp h
  · intro hlon
    have h0 : ((0 : Int) : ℝ) ≤ S / 2 + lon * (S / 360) := by
      have : S / 2 + lon * (S / 360) = S * (1 / 2 + lon / 360) := by ring
      rw [this]; push_cast
      exact mul_nonneg hS.le (by linarith)
    have h1 := le_Round 0 _ h0
    push_cast at h1
    split_ifs
    · exact hS.le
    · exact h1
  · intro hlat
    obtain ⟨hf, hhalf, hlo, hhi⟩ := half_log_sin lat hlat
    rw [hf, hhalf]
    have h0 : ((0 : Int) : ℝ) ≤ S / 2 + Real.log (Real.tan (π / 4 + lat * π / 360)) *
        -(S / (2 * π)) := by
      have : S / 2 + Real.log (Real.tan (π / 4 + lat * π / 360)) * -(S / (2 * π))
          = S * (1 / 2 - Real.log (Real.tan (π / 4 + lat * π / 360)) / (2 * π)) := by
        field_simp; ring
      rw [this]; push_cast
      have h2 : Real.log (Real.tan (π / 4 + lat * π / 360)) / (2 * π) ≤ 1 / 2 := by
        rw [div_le_iff₀ (by positivity)]; linarith
      exact mul_nonneg hS.le (by linarith)
    have h1 := le_Round 0 _ h0
    push_cast at h1
    split_ifs
    · exact hS.le
    · exact h1

/-- C6. At integer zoom the `Px`/`LL` round trip stays within the same pixel: on a
freshly built projection of tile size `s ≥ 1`, for every integer zoom `z` in
`[0, 29]` and every `(lon, lat)` with `-180 ≤ lon ≤ 180` and `|lat| < 85.05`, `Px`
returns a pixel `p`, `LL` maps `p` to a point, and `Px` maps that point to `p`. -/
theorem Px_LL_Px_int (c : Cache) (s : Int) (hs : 1 ≤ s) (hc : c s = none) (z : Nat)
    (hz : z ≤ 29) (lon lat : ℝ) (_hlon1 : -180 ≤ lon) (_hlon2 : lon ≤ 180)
    (hlat : |lat| < 85.05) :
    ∃ p, (New c (some ⟨s⟩)).1.Px [lon, lat] (.int z) = some p ∧
      ((New c (some ⟨s⟩)).1.LL p (.int z)).bind
        (fun q => (New c (some ⟨s⟩)).1.Px q (.int z)) = some p := by
  obtain ⟨X, Y, hP, hX, hY, hXle, hYle, -, hY0⟩ := Px_int_props c s hs hc z hz lon lat
  refine ⟨[X, Y], hP, ?_⟩
  rw [LL_int_fresh c s hc z hz, Option.some_bind]
  exact Px_of_LL_int c s hs hc z hz X Y hX hY hXle (hY0 hlat.le) hYle

/-! ## The range returned by `XYZ` -/

/-- `New(nil)` is `New(&Options{Size: 256})`. -/
theorem New_nil (c : Cache) : New c none = New c (some ⟨256⟩) := rfl

/-- `XYZ` reprojects a 900913 bbox to WGS84 and then works as on a WGS84 bbox. -/
theorem XYZ_reproject (sm : SphericalMercator) (bbox : List ℝ) (zoom : Zoom) (tmsStyle : Bool)
    (srs : String) :
    sm.XYZ bbox zoom tmsStyle srs =
      (if srs = "900913" then sm.Convert bbox "WGS84" else some bbox).bind
        (fun g => sm.XYZ g zoom tmsStyle "WGS84") := by
  have hsrs : ¬ (("WGS84" : String) = "900913") := by decide
  by_cases h : srs = "900913"
  · simp only [SphericalMercator.XYZ, h, hsrs, if_true, if_false, Option.pure_def, bind,
      Option.bind]
  · simp only [SphericalMercator.XYZ, h, hsrs, if_false, Option.pure_def, bind, Option.bind]

/-- The tile index of a pixel is not negative exactly when the pixel is not negative. -/
theorem Floor_div_nonneg_iff (x t : ℝ) (ht : 0 < t) : 0 ≤ Floor (x / t) ↔ 0 ≤ x := by
  unfold Floor
  rw [show ((0 : ℝ) ≤ ((⌊x / t⌋ : Int) : ℝ)) ↔ (0 : Int) ≤ ⌊x / t⌋ from by exact_mod_cast Iff.rfl,
    Int.floor_nonneg]
  constructor
  · intro h
    have := mul_nonneg h ht.le
    rwa [div_mul_cancel₀ _ ht.ne'] at this
  · intro h
    exact div_nonneg h ht.le

/-- The zero-clamped minimum of two candidates is at most their maximum exactly when
one of the candidates is not negative. -/
theorem minZero_le_max_iff (p q : ℝ) :
    (if (if q < p then q else p) < 0 then 0 else (if q < p then q else p))
      ≤ (if q > p then q else p) ↔ 0 ≤ p ∨ 0 ≤ q := by
  constructor
  · intro h
    by_contra hn
    push_neg at hn
    obtain ⟨hp, hq⟩ := hn
    split_ifs at h <;> linarith
  · rintro (hp | hq) <;> split_ifs <;> linarith

/-- `XYZ` from the pixels of the two corners: the range is ordered exactly when one of
the two candidate indices is not negative. -/
theorem XYZ_order_iff (sm : SphericalMercator) (hsz : 0 < sm.sizef) (bbox : List ℝ)
    (zoom : Zoom) (tmsStyle : Bool) (srs : String) (w so e n x1 y1 x2 y2 : ℝ)
    (hg : (if srs = "900913" then sm.Convert bbox "WGS84" else some bbox) = some [w, so, e, n])
    (h1 : sm.Px [w, so] zoom = some [x1, y1]) (h2 : sm.Px [e, n] zoom = some [x2, y2]) :
    ∃ b, sm.XYZ bbox zoom tmsStyle srs = some b ∧
      (b.MinX ≤ b.MaxX ↔ 0 ≤ x1 ∨ 1 ≤ x2) ∧ (b.MinY ≤ b.MaxY ↔ 0 ≤ y2 ∨ 1 ≤ y1) := by
  have hsrs : ("WGS84" : String) ≠ "900913" := by decide
  rw [XYZ_reproject, hg, Option.some_bind]
  refine ⟨_, XYZ_eq sm w so e n zoom tmsStyle "WGS84" hsrs x1 y1 x2 y2 h1 h2, ?_, ?_⟩
  · have h := minZero_le_max_iff (Floor (x1 / sm.sizef)) (Floor ((x2 - 1) / sm.sizef))
    rw [Floor_div_nonneg_iff _ _ hsz, Floor_div_nonneg_iff _ _ hsz, sub_nonneg] at h
    exact h
  · have h := minZero_le_max_iff (Floor (y2 / sm.sizef)) (Floor ((y1 - 1) / sm.sizef))
    rw [Floor_div_nonneg_iff _ _ hsz, Floor_div_nonneg_iff _ _ hsz, sub_nonneg] at h
    cases tmsStyle with
    | false => simpa using h
    | true =>
      simp only [if_true]
      rw [sub_le_sub_iff_left]
      exact h

/-- C2 (amended). `XYZ` returns an ordered range exactly when a candidate index is
not negative: for every tile size `s ≥ 1` and state of the cache, every bbox that is,
after the reprojection to WGS84 that `srs = "900913"` asks for, `[w, s, e, n]`, every
zoom at which `Px` returns the pixels `[x1, y1]` of `[w, s]` and `[x2, y2]` of `[e, n]`,
and either value of `tmsStyle`, `XYZ` returns bounds with `MinX ≤ MaxX` exactly when
`0 ≤ x1` or `1 ≤ x2`, and with `MinY ≤ MaxY` exactly when `0 ≤ y2` or `1 ≤ y1`. -/
theorem XYZ_range_ordered (c : Cache) (s : Int) (hs : 1 ≤ s) (bbox : List ℝ) (zoom : Zoom)
    (tmsStyle : Bool) (srs : String) (w so e n x1 y1 x2 y2 : ℝ)
    (hg : (if srs = "900913" then (New c (some ⟨s⟩)).1.Convert bbox "WGS84" else some bbox)
      = some [w, so, e, n])
    (h1 : (New c (some ⟨s⟩)).1.Px [w, so] zoom = some [x1, y1])
    (h2 : (New c (some ⟨s⟩)).1.Px [e, n] zoom = some [x2, y2]) :
    ∃ b, (New c (some ⟨s⟩)).1.XYZ bbox zoom tmsStyle srs = some b ∧
      (b.MinX ≤ b.MaxX ↔ 0 ≤ x1 ∨ 1 ≤ x2) ∧ (b.MinY ≤ b.MaxY ↔ 0 ≤ y2 ∨ 1 ≤ y1) := by
  have hsz : 0 < (New c (some ⟨s⟩)).1.sizef := by
    obtain ⟨e1, e2⟩ := New_size c (some ⟨s⟩)
    rw [e2, e1]
    exact_mod_cast (by omega : 0 < s)
  exact XYZ_order_iff _ hsz bbox zoom tmsStyle srs w so e n x1 y1 x2 y2 hg h1 h2

/-- The pixel of `[0, 0]` at integer zoom 0 on the projection of tile size 256. -/
theorem Px_origin :
    (New cache (some ⟨256⟩)).1.Px [0, 0] (.int ((0 : Nat) : Int)) = some [128, 128] := by
  rw [Px_int_fresh cache 256 rfl 0 (by norm_num)]
  have hx : ((256 : Int) : ℝ) * 2 ^ 0 / 2 + 0 * (((256 : Int) : ℝ) * 2 ^ 0 / 360)
      = ((128 : Int) : ℝ) := by norm_num
  have hf : min (Max.max (Real.sin (d2r * 0)) (-0.9999)) 0.9999 = 0 := by
    rw [mul_zero, Real.sin_zero, max_eq_left (by norm_num), min_eq_left (by norm_num)]
  have hy : ((256 : Int) : ℝ) * 2 ^ 0 / 2 + 0.5 * Real.log ((1 + 0) / (1 - 0)) *
      -(((256 : Int) : ℝ) * 2 ^ 0 / (2 * π)) = ((128 : Int) : ℝ) := by
    norm_num
  rw [hx, hf, hy, Round_intCast]
  norm_num

/-- C2 (witness). The bbox `[0, 0, 0, 0]` at integer zoom 0 with TMS numbering on the
projection of tile size 256 built from the empty cache: both corners have the pixel
`[128, 128]`, and the range is ordered. -/
theorem XYZ_range_ordered_witness :
    ∃ b, (New cache (some ⟨256⟩)).1.XYZ [0, 0, 0, 0] (.int ((0 : Nat) : Int)) true "WGS84"
        = some b ∧
      (b.MinX ≤ b.MaxX ↔ (0 : ℝ) ≤ 128 ∨ (1 : ℝ) ≤ 128) ∧
      (b.MinY ≤ b.MaxY ↔ (0 : ℝ) ≤ 128 ∨ (1 : ℝ) ≤ 128) :=
  XYZ_range_ordered cache 256 (by norm_num) [0, 0, 0, 0] (.int ((0 : Nat) : Int)) true "WGS84"
    0 0 0 0 128 128 128 128 (if_neg (by decide)) Px_origin Px_origin

/-- C2 (counterexample). On the projection of `New(nil)`, the bbox
`[-540, 90, -540, 90]` at integer zoom 0: both corners have the pixel column `-256` and
a negative pixel row, every candidate index is negative, `minZero` returns 0 and `max`
a negative index, so `MinX > MaxX` and `MinY > MaxY`. -/
theorem XYZ_inverted_range :
    ∃ b, (New cache none).1.XYZ [-540, 90, -540, 90] (.int 0) false "WGS84" = some b ∧
      ¬ (b.MinX ≤ b.MaxX) ∧ ¬ (b.MinY ≤ b.MaxY) := by
  have hπ := Real.pi_pos
  have hsz : 0 < (New cache (some ⟨256⟩)).1.sizef := by
    rw [(New_fresh cache 256 rfl).2.1]; norm_num
  have hlog : 7 < Real.log 19999 := by
    rw [Real.lt_log_iff_exp_lt (by norm_num)]
    have h1 : Real.exp 7 = Real.exp 1 ^ 7 := by rw [← Real.exp_nat_mul]; norm_num
    have h2 : Real.exp 1 < 2.72 := lt_trans Real.exp_one_lt_d9 (by norm_num)
    have h3 : Real.exp 1 ^ 7 < 2.72 ^ 7 :=
      pow_lt_pow_left₀ h2 (Real.exp_pos 1).le (by norm_num)
    rw [h1]
    exact lt_trans h3 (by norm_num)
  obtain ⟨Y, hP, hY⟩ : ∃ Y : ℝ, (New cache (some ⟨256⟩)).1.Px [-540, 90]
      (.int ((0 : Nat) : Int)) = some [-256, Y] ∧ Y ≤ -1 := by
    rw [Px_int_fresh cache 256 rfl 0 (by norm_num)]
    have hx : ((256 : Int) : ℝ) * 2 ^ 0 / 2 + -540 * (((256 : Int) : ℝ) * 2 ^ 0 / 360)
        = ((-256 : Int) : ℝ) := by norm_num
    have hsin : Real.sin (d2r * 90) = 1 := by
      have : d2r * 90 = π / 2 := by unfold d2r; ring
      rw [this, Real.sin_pi_div_two]
    have hf : min (Max.max (Real.sin (d2r * 90)) (-0.9999)) 0.9999 = 0.9999 := by
      rw [hsin, max_eq_left (by norm_num), min_eq_right (by norm_num)]
    have hratio : ((1 : ℝ) + 0.9999) / (1 - 0.9999) = 19999 := by norm_num
    have hy : ((256 : Int) : ℝ) * 2 ^ 0 / 2 + 0.5 * Real.log ((1 + 0.9999) / (1 - 0.9999)) *
        -(((256 : Int) : ℝ) * 2 ^ 0 / (2 * π)) ≤ ((-1 : Int) : ℝ) := by
      rw [hratio]
      have : ((256 : Int) : ℝ) * 2 ^ 0 / 2 + 0.5 * Real.log 19999 *
          -(((256 : Int) : ℝ) * 2 ^ 0 / (2 * π)) = 128 - 64 * (Real.log 19999 / π) := by
        push_cast; field_simp; ring
      rw [this]
      have h2 : 7 / 3.15 < Real.log 19999 / π := by
        rw [div_lt_div_iff₀ (by norm_num) hπ]
        nlinarith [Real.pi_lt_d2]
      push_cast
      norm_num at h2 ⊢
      linarith
    have hR := Round_le (-1) _ hy
    rw [hx, hf, Round_intCast]
    generalize Round (((256 : Int) : ℝ) * 2 ^ 0 / 2 +
      0.5 * Real.log ((1 + 0.9999) / (1 - 0.9999)) *
        -(((256 : Int) : ℝ) * 2 ^ 0 / (2 * π))) = R at hR ⊢
    push_cast at hR ⊢
    have h1 : ¬ (R > 256 * 2 ^ 0) := by norm_num; linarith
    rw [if_neg (by norm_num), if_neg h1]
    exact ⟨R, rfl, hR⟩
  rw [New_nil]
  obtain ⟨b, hb, hX, hYY⟩ := XYZ_order_iff _ hsz [-540, 90, -540, 90] (.int ((0 : Nat) : Int))
    false "WGS84" (-540) 90 (-540) 90 (-256) Y (-256) Y (if_neg (by decide)) hP hP
  refine ⟨b, hb, ?_, ?_⟩
  · rw [hX]; norm_num
  · rw [hYY]
    push_neg
    constructor <;> linarith

/-- C8 (failing input). On the projection of `New(nil)`, the bbox `[0, -90, 0, -90]`
(the south pole) at integer zoom 0 with TMS numbering gives `MinY = -1`: both corners
have the pixel row 256, the candidate rows are `[1, 0]`, so `MaxY = 1` before the flip
and the flip `2^0 - 1 - 1` is negative. -/
theorem XYZ_tms_negative_MinY :
    (New cache none).1.XYZ [0, -90, 0, -90] (.int 0) true "WGS84"
      = some { MinX := 0, MinY := -1, MaxX := 0, MaxY := 0 } := by
  have hπ := Real.pi_pos
  have hsrs : ("WGS84" : String) ≠ "900913" := by decide
  have hsz : (New cache (some ⟨256⟩)).1.sizef = ((256 : Int) : ℝ) :=
    (New_fresh cache 256 rfl).2.1
  have hlog : 2 * π < Real.log 19999 := by
    rw [Real.lt_log_iff_exp_lt (by norm_num)]; exact exp_two_pi_lt
  have hP : (New cache (some ⟨256⟩)).1.Px [0, -90] (.int ((0 : Nat) : Int))
      = some [128, 256] := by
    rw [Px_int_fresh cache 256 rfl 0 (by norm_num)]
    have hx : ((256 : Int) : ℝ) * 2 ^ 0 / 2 + 0 * (((256 : Int) : ℝ) * 2 ^ 0 / 360)
        = ((128 : Int) : ℝ) := by norm_num
    have hsin : Real.sin (d2r * -90) = -1 := by
      have : d2r * -90 = -(π / 2) := by unfold d2r; ring
      rw [this, Real.sin_neg, Real.sin_pi_div_two]
    have hf : min (Max.max (Real.sin (d2r * -90)) (-0.9999)) 0.9999 = -0.9999 := by
      rw [hsin, max_eq_right (by norm_num), min_eq_left (by norm_num)]
    have hratio : ((1 : ℝ) + -0.9999) / (1 - -0.9999) = (19999 : ℝ)⁻¹ := by norm_num
    have hy : ((256 : Int) : ℝ) ≤ ((256 : Int) : ℝ) * 2 ^ 0 / 2 +
        0.5 * Real.log ((1 + -0.9999) / (1 - -0.9999)) *
          -(((256 : Int) : ℝ) * 2 ^ 0 / (2 * π)) := by
      rw [hratio, Real.log_inv]
      have : ((256 : Int) : ℝ) * 2 ^ 0 / 2 + 0.5 * -Real.log 19999 *
          -(((256 : Int) : ℝ) * 2 ^ 0 / (2 * π)) = 128 + 64 * (Real.log 19999 / π) := by
        push_cast; field_simp; ring
      rw [this]
      have h2 : 2 < Real.log 19999 / π := by rw [lt_div_iff₀ hπ]; linarith
      push_cast; linarith
    have hR := le_Round 256 _ hy
    rw [hx, hf, Round_intCast]
    have e256 : ((256 : Int) : ℝ) * 2 ^ 0 = 256 := by norm_num
    rw [e256] at hR ⊢
    push_cast at hR ⊢
    rw [if_neg (by norm_num)]
    have hy2 : ∀ r : ℝ, (256 : ℝ) ≤ r → (if r > 256 then (256 : ℝ) else r) = 256 := by
      intro r hr
      split_ifs with h
      · rfl
      · exact le_antisymm (not_lt.mp h) hr
    rw [hy2 _ hR]
  rw [New_nil]
  refine (XYZ_eq _ 0 (-90) 0 (-90) _ true "WGS84" hsrs 128 256 128 256 hP hP).trans ?_
  rw [hsz]
  have f1 : Floor ((128 - 1) / ((256 : Int) : ℝ)) = 0 := by
    unfold Floor
    have : ⌊((128 : ℝ) - 1) / ((256 : Int) : ℝ)⌋ = 0 := by
      rw [Int.floor_eq_iff]; constructor <;> norm_num
    rw [this]; norm_num
  have f2 : Floor (128 / ((256 : Int) : ℝ)) = 0 := by
    unfold Floor
    have : ⌊(128 : ℝ) / ((256 : Int) : ℝ)⌋ = 0 := by
      rw [Int.floor_eq_iff]; constructor <;> norm_num
    rw [this]; norm_num
  have f3 : Floor ((256 - 1) / ((256 : Int) : ℝ)) = 0 := by
    unfold Floor
    have : ⌊((256 : ℝ) - 1) / ((256 : Int) : ℝ)⌋ = 0 := by
      rw [Int.floor_eq_iff]; constructor <;> norm_num
    rw [this]; norm_num
  have f4 : Floor (256 / ((256 : Int) : ℝ)) = 1 := by
    unfold Floor
    have : ⌊(256 : ℝ) / ((256 : Int) : ℝ)⌋ = 1 := by
      rw [Int.floor_eq_iff]; constructor <;> norm_num
    rw [this]; norm_num
  simp only [f1, f2, f3, f4, zz]
  norm_num

/-! ## `New` and the cache -/

/-- C3 (failing input). The second `New(nil)` of a process: the cache holds the four
slices of length 30 that the first call stored for size 256, and the projection
returned has `bc`, `cc`, `zc` and `ac` all `nil`. -/
theorem New_second_call_nil :
    (New (New cache none).2 none).1.bc = [] ∧ (New (New cache none).2 none).1.cc = [] ∧
    (New (New cache none).2 none).1.zc = [] ∧ (New (New cache none).2 none).1.ac = [] ∧
    (Cache.read (New (New cache none).2 none).2 256 "bc").length = 30 ∧
    (Cache.read (New (New cache none).2 none).2 256 "cc").length = 30 ∧
    (Cache.read (New (New cache none).2 none).2 256 "zc").length = 30 ∧
    (Cache.read (New (New cache none).2 none).2 256 "ac").length = 30 := by
  have h1 : (New cache none).2 = Function.update cache 256 (some (newConsts ((256 : Int) : ℝ))) :=
    (New_fresh cache 256 rfl).2.2.2.2.2.2
  obtain ⟨l1, l2, l3, l4, -⟩ := newConsts_spec (256 : ℝ)
  rw [h1]
  simp only [New, SphericalMercator.zero, Cache.read, Function.update_same, Int.cast_ofNat,
    true_and]
  exact ⟨l1, l2, l3, l4⟩

/-- C10 (counterexample). `New(&Options{Size: 0})` returns a projection of size 0, not
256. -/
theorem New_size_zero : ¬ ((New cache (some ⟨0⟩)).1.size = 256) := by
  rw [(New_size cache (some ⟨0⟩)).1]
  norm_num

/-- C10 (amended). The tile size defaults to 256 only when `New` is called with no
options (`nil`); called with options, the projection has the size the options give,
also when that is 0. This holds for every state of the cache. -/
theorem New_size_default (c : Cache) (opts : Option Options) :
    (New c none).1.size = 256 ∧
    (New c opts).1.size = (match opts with | none => 256 | some o => o.Size) :=
  ⟨(New_size c none).1, (New_size c opts).1⟩

/-! ## Instances at concrete inputs -/

/-- C1 (witness). Tile `(1, 0)` at zoom 1 with TMS numbering, tile size 256. -/
theorem XYZ_BBox_witness :
    ((New cache (some ⟨256⟩)).1.BBox ((1 : Int) : ℝ) ((0 : Int) : ℝ) (.int ((1 : Nat) : Int))
        true "WGS84").bind
        (fun b => (New cache (some ⟨256⟩)).1.XYZ b (.int ((1 : Nat) : Int)) true "WGS84")
      = some { MinX := ((1 : Int) : ℝ), MinY := ((0 : Int) : ℝ), MaxX := ((1 : Int) : ℝ),
               MaxY := ((0 : Int) : ℝ) } :=
  XYZ_BBox cache 256 (by norm_num) rfl 1 (by norm_num) 1 0 (by norm_num) (by norm_num)
    (by norm_num) (by norm_num) true

/-- C4 (witness). The point `(10, 45)` on the projection of `New(nil)`. -/
theorem Inverse_Forward_witness :
    ((New cache none).1.Forward [10, 45]).bind (New cache none).1.Inverse = some [10, 45] :=
  Inverse_Forward (New cache none).1 10 45 (by rw [abs_lt]; constructor <;> norm_num)
    (by rw [abs_le]; constructor <;> norm_num)

/-- C5 (witness). The point `(-179, 85)` at zoom 8.6574, tile size 256. -/
theorem LL_Px_float_witness :
    ((New cache (some ⟨256⟩)).1.Px [-179, 85] (.float64 8.6574)).bind
      (fun p => (New cache (some ⟨256⟩)).1.LL p (.float64 8.6574)) = some [-179, 85] :=
  LL_Px_float cache 256 (by norm_num) 8.6574 (-179) 85 (by norm_num) (by norm_num)
    (by rw [abs_lt]; constructor <;> norm_num)

/-- C6 (witness). The point `(-179, 85)` at integer zoom 9, tile size 256. -/
theorem Px_LL_Px_int_witness :
    ∃ p, (New cache (some ⟨256⟩)).1.Px [-179, 85] (.int ((9 : Nat) : Int)) = some p ∧
      ((New cache (some ⟨256⟩)).1.LL p (.int ((9 : Nat) : Int))).bind
        (fun q => (New cache (some ⟨256⟩)).1.Px q (.int ((9 : Nat) : Int))) = some p :=
  Px_LL_Px_int cache 256 (by norm_num) rfl 9 (by norm_num) (-179) 85 (by norm_num)
    (by norm_num) (by rw [abs_lt]; constructor <;> norm_num)

/-- C9 (witness). Tile `(0, 0)` at zoom 1 with TMS numbering, tile size 256. -/
theorem BBox_formula_witness :
    ∃ w so e n : ℝ,
      (New cache (some ⟨256⟩)).1.BBox 0 0 (.int ((1 : Nat) : Int)) true "WGS84"
        = some [w, so, e, n] ∧
      w = 360 * 0 / 2 ^ 1 - 180 ∧
      so = (180 / π) * (2 * Real.arctan (Real.exp
        (π * (1 - 2 * ((if true = true then (2 : ℝ) ^ 1 - 1 - 0 else 0) + 1) / 2 ^ 1))) - π / 2) ∧
      e = 360 * (0 + 1) / 2 ^ 1 - 180 ∧
      n = (180 / π) * (2 * Real.arctan (Real.exp
        (π * (1 - 2 * (if true = true then (2 : ℝ) ^ 1 - 1 - 0 else 0) / 2 ^ 1))) - π / 2) ∧
      w < e ∧ so < n :=
  BBox_formula cache 256 (by norm_num) rfl 1 (by norm_num) 0 0 true

/-! ## The doubling rule of the precomputed constants -/

/-- C11. The precomputed constants follow the doubling rule: when `New` is called for
a tile size `s` that has no cache entry, then for every zoom level `d` in `[0, 29]`
the returned projection has `ac[d] = s * 2^d`, `zc[d] = s * 2^d / 2`,
`bc[d] = s * 2^d / 360` and `cc[d] = s * 2^d / (2 π)`, each of the four slices has
length 30, and the cache after the call holds the same four slices under the key
`s`. -/
theorem New_doubling (c : Cache) (s : Int) (_hs : 1 ≤ s) (hc : c s = none) (d : Nat)
    (hd : d ≤ 29) :
    index (New c (some ⟨s⟩)).1.ac d = some ((s : ℝ) * 2 ^ d) ∧
    index (New c (some ⟨s⟩)).1.zc d = some ((s : ℝ) * 2 ^ d / 2) ∧
    index (New c (some ⟨s⟩)).1.bc d = some ((s : ℝ) * 2 ^ d / 360) ∧
    index (New c (some ⟨s⟩)).1.cc d = some ((s : ℝ) * 2 ^ d / (2 * π)) ∧
    ((New c (some ⟨s⟩)).1.bc.length = 30 ∧ (New c (some ⟨s⟩)).1.cc.length = 30 ∧
      (New c (some ⟨s⟩)).1.zc.length = 30 ∧ (New c (some ⟨s⟩)).1.ac.length = 30) ∧
    (Cache.read (New c (some ⟨s⟩)).2 s "bc" = (New c (some ⟨s⟩)).1.bc ∧
      Cache.read (New c (some ⟨s⟩)).2 s "cc" = (New c (some ⟨s⟩)).1.cc ∧
      Cache.read (New c (some ⟨s⟩)).2 s "zc" = (New c (some ⟨s⟩)).1.zc ∧
      Cache.read (New c (some ⟨s⟩)).2 s "ac" = (New c (some ⟨s⟩)).1.ac) := by
  obtain ⟨h1, h2, h3, h4⟩ := New_fresh_index c s hc d hd
  obtain ⟨-, -, e1, e2, e3, e4, e5⟩ := New_fresh c s hc
  obtain ⟨l1, l2, l3, l4, -⟩ := newConsts_spec (s : ℝ)
  refine ⟨h4, h3, h1, h2, ⟨?_, ?_, ?_, ?_⟩, ?_⟩
  · rw [e1]; exact l1
  · rw [e2]; exact l2
  · rw [e3]; exact l3
  · rw [e4]; exact l4
  · rw [e1, e2, e3, e4, e5]
    simp [Cache.read]

/-- C11 (witness). Zoom level 3 of the projection of tile size 256 built from the
empty cache. -/
theorem New_doubling_witness :
    index (New cache (some ⟨256⟩)).1.ac ((3 : Nat) : Int) = some (((256 : Int) : ℝ) * 2 ^ 3) :=
  (New_doubling cache 256 (by norm_num) rfl 3 (by norm_num)).1

/-! ## Whole pixels at integer zoom -/

/-- C12. `Px` at integer zoom returns whole pixels bounded above by the map size: on a
freshly built projection, for every integer zoom `z` in `[0, 29]` and every input
`[lon, lat]`, `Px` returns a pair whose components are both integer-valued and at
most `ac[z] = size * 2^z`. -/
theorem Px_int_whole (c : Cache) (s : Int) (hc : c s = none) (z : Nat) (hz : z ≤ 29)
    (lon lat : ℝ) :
    ∃ X Y : ℝ, (New c (some ⟨s⟩)).1.Px [lon, lat] (.int z) = some [X, Y] ∧
      (∃ m : Int, X = (m : ℝ)) ∧ (∃ n : Int, Y = (n : ℝ)) ∧
      index (New c (some ⟨s⟩)).1.ac z = some ((s : ℝ) * 2 ^ z) ∧
      X ≤ (s : ℝ) * 2 ^ z ∧ Y ≤ (s : ℝ) * 2 ^ z := by
  have hSint : ∃ m : Int, (s : ℝ) * 2 ^ z = (m : ℝ) := ⟨s * 2 ^ z, by push_cast; ring⟩
  rw [Px_int_fresh c s hc z hz]
  refine ⟨_, _, rfl, ?_, ?_, (New_fresh_index c s hc z hz).2.2.2, ?_, ?_⟩
  · split_ifs
    · exact hSint
    · exact Round_int _
  · split_ifs
    · exact hSint
    · exact Round_int _
  · split_ifs with h
    · exact le_rfl
    · exact not_lt.mp h
  · split_ifs with h
    · exact le_rfl
    · exact not_lt.mp h

/-- C12 (witness). The input of `TestPx`, `[-179, 85]` at zoom 9, tile size 256. -/
theorem Px_int_whole_witness :
    ∃ X Y : ℝ, (New cache (some ⟨256⟩)).1.Px [-179, 85] (.int ((9 : Nat) : Int)) = some [X, Y] ∧
      (∃ m : Int, X = (m : ℝ)) ∧ (∃ n : Int, Y = (n : ℝ)) ∧
      index (New cache (some ⟨256⟩)).1.ac ((9 : Nat) : Int) = some (((256 : Int) : ℝ) * 2 ^ 9) ∧
      X ≤ ((256 : Int) : ℝ) * 2 ^ 9 ∧ Y ≤ ((256 : Int) : ℝ) * 2 ^ 9 :=
  Px_int_whole cache 256 rfl 9 (by norm_num) (-179) 85

/-! ## Unsupported zoom types -/

/-- Whatever `Px` returns for a `float64` or `int` zoom has two components. -/
theorem Px_length (sm : SphericalMercator) (ll : List ℝ) (zoom : Zoom) (r : List ℝ)
    (hz : zoom ≠ .other) (h : sm.Px ll zoom = some r) : r.length = 2 := by
  cases zoom with
  | other => exact absurd rfl hz
  | float64 z =>
    simp only [SphericalMercator.Px, Option.bind_eq_bind, Option.pure_def,
      Option.bind_eq_some, Option.some.injEq] at h
    obtain ⟨_, _, _, _, rfl⟩ := h
    rfl
  | int z =>
    simp only [SphericalMercator.Px, Option.bind_eq_bind, Option.pure_def,
      Option.bind_eq_some, Option.some.injEq] at h
    obtain ⟨_, _, _, _, _, _, _, _, _, _, _, _, rfl⟩ := h
    rfl

/-- Whatever `LL` returns for a `float64` or `int` zoom has two components. -/
theorem LL_length (sm : SphericalMercator) (px : List ℝ) (zoom : Zoom) (r : List ℝ)
    (hz : zoom ≠ .other) (h : sm.LL px zoom = some r) : r.length = 2 := by
  cases zoom with
  | other => exact absurd rfl hz
  | float64 z =>
    simp only [SphericalMercator.LL, Option.bind_eq_bind, Option.pure_def,
      Option.bind_eq_some, Option.some.injEq] at h
    obtain ⟨_, _, _, _, rfl⟩ := h
    rfl
  | int z =>
    simp only [SphericalMercator.LL, Option.bind_eq_bind, Option.pure_def,
      Option.bind_eq_some, Option.some.injEq] at h
    obtain ⟨_, _, _, _, _, _, _, _, _, _, rfl⟩ := h
    rfl

/-- C13. An unsupported zoom type produces no pair: for a zoom argument that is
neither an `int` nor a `float64`, `Px` and `LL` return the empty (`nil`) result for
every input; for an `int` or `float64` zoom whatever they return has exactly two
components, and they do return a pair on every input pair at every `float64` zoom and,
on a freshly built projection, at every `int` zoom in `[0, 29]`. -/
theorem unsupported_zoom (sm : SphericalMercator) (ll : List ℝ) :
    sm.Px ll .other = some [] ∧ sm.LL ll .other = some [] ∧
    (∀ zoom r, zoom ≠ .other → sm.Px ll zoom = some r → r.length = 2) ∧
    (∀ zoom r, zoom ≠ .other → sm.LL ll zoom = some r → r.length = 2) ∧
    (∀ (z p q : ℝ), ∃ x y, sm.Px [p, q] (.float64 z) = some [x, y]) ∧
    (∀ (z p q : ℝ), ∃ x y, sm.LL [p, q] (.float64 z) = some [x, y]) ∧
    (∀ (c : Cache) (s : Int) (z : Nat) (p q : ℝ), c s = none → z ≤ 29 →
      (∃ x y, (New c (some ⟨s⟩)).1.Px [p, q] (.int z) = some [x, y]) ∧
      (∃ x y, (New c (some ⟨s⟩)).1.LL [p, q] (.int z) = some [x, y])) := by
  refine ⟨rfl, rfl, fun zoom r hz h => Px_length sm ll zoom r hz h,
    fun zoom r hz h => LL_length sm ll zoom r hz h, ?_, ?_, ?_⟩
  · intro z p q
    simp only [SphericalMercator.Px, List.getElem?_cons_zero,
      List.getElem?_cons_succ, Option.bind_eq_bind, Option.some_bind, Option.pure_def]
    exact ⟨_, _, rfl⟩
  · intro z p q
    simp only [SphericalMercator.LL, List.getElem?_cons_zero,
      List.getElem?_cons_succ, Option.bind_eq_bind, Option.some_bind, Option.pure_def]
    exact ⟨_, _, rfl⟩
  · intro c s z p q hc hz
    exact ⟨⟨_, _, Px_int_fresh c s hc z hz p q⟩, ⟨_, _, LL_int_fresh c s hc z hz p q⟩⟩

/-- C13 (witness). The input of `TestPx` at the `float64` zoom 8.6574 on the projection
of `New(nil)`: what `Px` returns has two components. -/
theorem unsupported_zoom_witness :
    ∀ r, (New cache none).1.Px [-179, 85] (.float64 8.6574) = some r → r.length = 2 :=
  fun r h => (unsupported_zoom (New cache none).1 [-179, 85]).2.2.1 (.float64 8.6574) r
    (fun h0 => Zoom.noConfusion h0) h

/-! ## `Convert` -/

/-- C14. `Convert` reprojects the two corners independently and keeps their order:
for every 4-element bbox `[w, s, e, n]`, `Convert b "900913"` is
`Forward [w, s] ++ Forward [e, n]`, and for every target other than `"900913"`
`Convert b target` is `Inverse [w, s] ++ Inverse [e, n]`; both corner conversions
return, and the result has exactly 4 components. -/
theorem Convert_corners (sm : SphericalMercator) (w so e n : ℝ) (dst : String) :
    (∃ p q, sm.Forward [w, so] = some p ∧ sm.Forward [e, n] = some q ∧
      sm.Convert [w, so, e, n] "900913" = some (p ++ q) ∧ (p ++ q).length = 4) ∧
    (dst ≠ "900913" →
      ∃ p q, sm.Inverse [w, so] = some p ∧ sm.Inverse [e, n] = some q ∧
        sm.Convert [w, so, e, n] dst = some (p ++ q) ∧ (p ++ q).length = 4) := by
  constructor
  · refine ⟨_, _, rfl, rfl, ?_, ?_⟩
    · simp [SphericalMercator.Convert, SphericalMercator.Forward]
    · simp
  · intro h
    refine ⟨_, _, rfl, rfl, ?_, ?_⟩
    · simp [SphericalMercator.Convert, SphericalMercator.Inverse, h]
    · simp

/-- C14 (witness). The bbox of `TestExtents` towards `"WGS84"`. -/
theorem Convert_corners_witness :
    ∃ p q, (New cache none).1.Inverse [-240, -90] = some p ∧
      (New cache none).1.Inverse [240, 90] = some q ∧
      (New cache none).1.Convert [-240, -90, 240, 90] "WGS84" = some (p ++ q) ∧
      (p ++ q).length = 4 :=
  (Convert_corners (New cache none).1 (-240) (-90) 240 90 "WGS84").2 (by decide)

/-! ## The latitude clamp of `Px` -/

/-- The clamp of `Px`: the clamped sine lies in `[-0.9999, 0.9999]`, the divisor
`1 - f` is at least `0.0001`, and the ratio under the logarithm lies in
`[1 / 19999, 19999]`. -/
theorem clamp_bounds (v : ℝ) :
    (-0.9999 : ℝ) ≤ min (Max.max v (-0.9999)) 0.9999 ∧
    min (Max.max v (-0.9999)) 0.9999 ≤ (0.9999 : ℝ) ∧
    (0.0001 : ℝ) ≤ 1 - min (Max.max v (-0.9999)) 0.9999 ∧
    (1 / 19999 : ℝ) ≤ (1 + min (Max.max v (-0.9999)) 0.9999) /
      (1 - min (Max.max v (-0.9999)) 0.9999) ∧
    (1 + min (Max.max v (-0.9999)) 0.9999) / (1 - min (Max.max v (-0.9999)) 0.9999)
      ≤ (19999 : ℝ) := by
  have h1 : (-0.9999 : ℝ) ≤ min (Max.max v (-0.9999)) 0.9999 :=
    le_min (le_max_right _ _) (by norm_num)
  have h2 : min (Max.max v (-0.9999)) 0.9999 ≤ (0.9999 : ℝ) := min_le_right _ _
  generalize min (Max.max v (-0.9999)) 0.9999 = f at h1 h2
  have hd : (0 : ℝ) < 1 - f := by norm_num at h2; linarith
  refine ⟨h1, h2, ?_, ?_, ?_⟩
  · norm_num at h2 ⊢; linarith
  · rw [le_div_iff₀ hd]; norm_num at h1 ⊢; linarith
  · rw [div_le_iff₀ hd]; norm_num at h2 ⊢; linarith

/-- C15. The latitude clamp in `Px` keeps the logarithm in its domain: in both zoom
paths `Px` computes the pixel row from the clamped sine
`f = min (max (sin (d2r * lat)) (-0.9999)) 0.9999` through `ln ((1 + f) / (1 - f))`, and
for every latitude `-0.9999 ≤ f ≤ 0.9999`, so the divisor `1 - f` is at least `0.0001`
and the argument `(1 + f) / (1 - f)` lies in `[1 / 19999, 19999]`. -/
theorem Px_clamp (sm : SphericalMercator) (lon lat : ℝ) :
    ∃ f : ℝ, f = min (Max.max (Real.sin (d2r * lat)) (-0.9999)) 0.9999 ∧
      (-0.9999 ≤ f ∧ f ≤ 0.9999) ∧ 0.0001 ≤ 1 - f ∧
      (1 / 19999 ≤ (1 + f) / (1 - f) ∧ (1 + f) / (1 - f) ≤ 19999) ∧
      (∀ z : ℝ, sm.Px [lon, lat] (.float64 z) = some
        [(if sm.sizef * (2 : ℝ) ^ z / 2 + lon * (sm.sizef * (2 : ℝ) ^ z / 360)
              > sm.sizef * (2 : ℝ) ^ z
            then sm.sizef * (2 : ℝ) ^ z
            else sm.sizef * (2 : ℝ) ^ z / 2 + lon * (sm.sizef * (2 : ℝ) ^ z / 360)),
         (if sm.sizef * (2 : ℝ) ^ z / 2 + 0.5 * Real.log ((1 + f) / (1 - f)) *
              -(sm.sizef * (2 : ℝ) ^ z / (2 * π)) > sm.sizef * (2 : ℝ) ^ z
            then sm.sizef * (2 : ℝ) ^ z
            else sm.sizef * (2 : ℝ) ^ z / 2 + 0.5 * Real.log ((1 + f) / (1 - f)) *
              -(sm.sizef * (2 : ℝ) ^ z / (2 * π)))]) ∧
      (∀ z : Int, sm.Px [lon, lat] (.int z) =
        (index sm.zc z).bind fun d => (index sm.bc z).bind fun bcz =>
          (index sm.cc z).bind fun ccz => (index sm.ac z).bind fun acz => some
            [(if Round (d + lon * bcz) > acz then acz else Round (d + lon * bcz)),
             (if Round (d + 0.5 * Real.log ((1 + f) / (1 - f)) * -ccz) > acz then acz
               else Round (d + 0.5 * Real.log ((1 + f) / (1 - f)) * -ccz))]) := by
  obtain ⟨h1, h2, h3, h4, h5⟩ := clamp_bounds (Real.sin (d2r * lat))
  refine ⟨_, rfl, ⟨h1, h2⟩, h3, ⟨h4, h5⟩, ?_, ?_⟩
  · intro z
    have e2 : (2.0 : ℝ) = 2 := by norm_num
    have e360 : (360.0 : ℝ) = 360 := by norm_num
    simp only [SphericalMercator.Px, List.getElem?_cons_zero, List.getElem?_cons_succ,
      Option.bind_eq_bind, Option.some_bind, Option.pure_def, e2, e360]
  · intro z
    simp only [SphericalMercator.Px, List.getElem?_cons_zero, List.getElem?_cons_succ,
      Option.bind_eq_bind, Option.some_bind, Option.pure_def]

/-! ## The integer-zoom path against the continuous path -/

/-- Rounding commutes with the upper clamp at a whole number. -/
theorem Round_clamp (S v : ℝ) (hS : ∃ m : Int, S = (m : ℝ)) :
    (if Round v > S then S else Round v) = Round (if v > S then S else v) := by
  obtain ⟨m, rfl⟩ := hS
  by_cases h : v > (m : ℝ)
  · rw [if_pos h, Round_intCast]
    have h1 := le_Round m v h.le
    split_ifs with h2
    · rfl
    · exact le_antisymm (not_lt.mp h2) h1
  · rw [if_neg h]
    have h1 := Round_le m v (not_lt.mp h)
    rw [if_neg (not_lt.mpr h1)]

/-- C16. The cached integer-zoom path of `Px` agrees with the continuous path at
whole-number zooms: on a freshly built projection, for every integer zoom `z` in
`[0, 29]` and every input `[lon, lat]`, `Px` at the fractional zoom `float64(z)` returns
a pair `[x, y]` and `Px` at the integer zoom `z` returns `[Round x, Round y]`, with
`Round` rounding half away from zero. -/
theorem Px_int_eq_Round_float (c : Cache) (s : Int) (hc : c s = none) (z : Nat) (hz : z ≤ 29)
    (lon lat : ℝ) :
    ∃ x y : ℝ, (New c (some ⟨s⟩)).1.Px [lon, lat] (.float64 ((z : Int) : ℝ)) = some [x, y] ∧
      (New c (some ⟨s⟩)).1.Px [lon, lat] (.int z) = some [Round x, Round y] := by
  have hsz : (New c (some ⟨s⟩)).1.sizef = (s : ℝ) := (New_fresh c s hc).2.1
  have hSint : ∃ m : Int, (s : ℝ) * 2 ^ z = (m : ℝ) := ⟨s * 2 ^ z, by push_cast; ring⟩
  have hpow : (2 : ℝ) ^ (((z : Int) : ℝ)) = (2 : ℝ) ^ z := by
    rw [Int.cast_natCast, Real.rpow_natCast]
  have e2 : (2.0 : ℝ) = 2 := by norm_num
  have e360 : (360.0 : ℝ) = 360 := by norm_num
  refine ⟨(if (s : ℝ) * 2 ^ z / 2 + lon * ((s : ℝ) * 2 ^ z / 360) > (s : ℝ) * 2 ^ z
        then (s : ℝ) * 2 ^ z else (s : ℝ) * 2 ^ z / 2 + lon * ((s : ℝ) * 2 ^ z / 360)),
      (if (s : ℝ) * 2 ^ z / 2 + 0.5 * Real.log
            ((1 + min (Max.max (Real.sin (d2r * lat)) (-0.9999)) 0.9999) /
             (1 - min (Max.max (Real.sin (d2r * lat)) (-0.9999)) 0.9999)) *
            -((s : ℝ) * 2 ^ z / (2 * π)) > (s : ℝ) * 2 ^ z
        then (s : ℝ) * 2 ^ z
        else (s : ℝ) * 2 ^ z / 2 + 0.5 * Real.log
            ((1 + min (Max.max (Real.sin (d2r * lat)) (-0.9999)) 0.9999) /
             (1 - min (Max.max (Real.sin (d2r * lat)) (-0.9999)) 0.9999)) *
            -((s : ℝ) * 2 ^ z / (2 * π))), ?_, ?_⟩
  · simp only [SphericalMercator.Px, List.getElem?_cons_zero, List.getElem?_cons_succ,
      Option.bind_eq_bind, Option.some_bind, Option.pure_def, hsz, hpow, e2, e360]
  · rw [Px_int_fresh c s hc z hz, Round_clamp _ _ hSint, Round_clamp _ _ hSint]

/-- C16 (witness). The input of `TestPx`, `[-179, 85]`, at zoom 9 and tile size 256. -/
theorem Px_int_eq_Round_float_witness :
    ∃ x y : ℝ, (New cache (some ⟨256⟩)).1.Px [-179, 85] (.float64 (((9 : Nat) : Int) : ℝ))
        = some [x, y] ∧
      (New cache (some ⟨256⟩)).1.Px [-179, 85] (.int ((9 : Nat) : Int))
        = some [Round x, Round y] :=
  Px_int_eq_Round_float cache 256 rfl 9 (by norm_num) (-179) 85

/-! ## The upper end of the range returned by `XYZ` -/

/-- The tile index of a pixel that is at most the map size is at most `2^z`. -/
theorem Floor_div_le (x : ℝ) (s : Int) (z : Nat) (hs : 1 ≤ s) (hx : x ≤ (s : ℝ) * 2 ^ z) :
    Floor (x / (s : ℝ)) ≤ (2 : ℝ) ^ z := by
  have hs0 : (0 : ℝ) < (s : ℝ) := by exact_mod_cast (by omega : 0 < s)
  unfold Floor
  have h1 : ((⌊x / (s : ℝ)⌋ : Int) : ℝ) ≤ x / (s : ℝ) := Int.floor_le _
  have h2 : x / (s : ℝ) ≤ (2 : ℝ) ^ z := by
    rw [div_le_iff₀ hs0]; linarith
  linarith

/-- C17. The tile indices of `XYZ` never exceed `2^zoom`: on a freshly built
projection of tile size `s ≥ 1`, for every integer zoom `z` in `[0, 29]`, every
4-element bbox, either value of `tmsStyle` and srs `"WGS84"`, `XYZ` returns bounds with
`MaxX ≤ 2^z` and `MaxY ≤ 2^z`; the bound `2^z`, one past the last tile index, is
attained by `MaxX` for the bbox `[180, 0, 180, 0]`. -/
theorem XYZ_max_le (c : Cache) (s : Int) (hs : 1 ≤ s) (hc : c s = none) (z : Nat) (hz : z ≤ 29)
    (w so e n : ℝ) (tmsStyle : Bool) :
    (∃ b, (New c (some ⟨s⟩)).1.XYZ [w, so, e, n] (.int z) tmsStyle "WGS84" = some b ∧
      b.MaxX ≤ (2 : ℝ) ^ z ∧ b.MaxY ≤ (2 : ℝ) ^ z) ∧
    (∃ b, (New c (some ⟨s⟩)).1.XYZ [180, 0, 180, 0] (.int z) tmsStyle "WGS84" = some b ∧
      b.MaxX = (2 : ℝ) ^ z) := by
  have hs0 : (0 : ℝ) < (s : ℝ) := by exact_mod_cast (by omega : 0 < s)
  have hsz : (New c (some ⟨s⟩)).1.sizef = (s : ℝ) := (New_fresh c s hc).2.1
  have hsrs : ("WGS84" : String) ≠ "900913" := by decide
  have hpz : (0 : ℝ) < (2 : ℝ) ^ z := by positivity
  constructor
  · obtain ⟨x1, y1, h1, -, -, hx1, hy1, -, -⟩ := Px_int_props c s hs hc z hz w so
    obtain ⟨x2, y2, h2, -, -, hx2, hy2, -, -⟩ := Px_int_props c s hs hc z hz e n
    refine ⟨_, XYZ_eq _ w so e n _ tmsStyle "WGS84" hsrs x1 y1 x2 y2 h1 h2, ?_, ?_⟩
    · rw [hsz]
      have hA := Floor_div_le x1 s z hs hx1
      have hB := Floor_div_le (x2 - 1) s z hs (by linarith)
      simp only
      split_ifs <;> assumption
    · rw [hsz]
      have hA := Floor_div_le y2 s z hs hy2
      have hB := Floor_div_le (y1 - 1) s z hs (by linarith)
      cases tmsStyle with
      | false =>
        simp only [Bool.false_eq_true, if_false]
        split_ifs <;> assumption
      | true =>
        simp only [if_true, two_pow_zz]
        split_ifs <;> linarith
  · obtain ⟨x, y, h, -, -, -, -, -, -⟩ := Px_int_props c s hs hc z hz 180 0
    have hx : x = (s : ℝ) * 2 ^ z := by
      have h' := Px_int_fresh c s hc z hz 180 0
      rw [h] at h'
      have e1 : (s : ℝ) * 2 ^ z / 2 + 180 * ((s : ℝ) * 2 ^ z / 360)
          = ((s * 2 ^ z : Int) : ℝ) := by push_cast; ring
      rw [e1, Round_intCast] at h'
      have h'' := (List.cons.inj (Option.some.inj h')).1
      rw [h'']
      push_cast
      split_ifs <;> rfl
    subst hx
    refine ⟨_, XYZ_eq _ 180 0 180 0 _ tmsStyle "WGS84" hsrs _ y _ y h h, ?_⟩
    rw [hsz]
    have hA : Floor ((s : ℝ) * 2 ^ z / (s : ℝ)) = (2 : ℝ) ^ z := by
      have := Floor_mul_div (2 ^ z) s hs
      push_cast at this
      rw [mul_comm (s : ℝ)]
      exact this
    have hB := Floor_div_le ((s : ℝ) * 2 ^ z - 1) s z hs (by linarith)
    simp only
    rw [hA, if_neg (not_lt.mpr hB)]

/-- C17 (witness). The bbox of `TestExtents`, `[-240, -90, 240, 90]`, at zoom 4 with TMS
numbering and tile size 256. -/
theorem XYZ_max_le_witness :
    ∃ b, (New cache (some ⟨256⟩)).1.XYZ [-240, -90, 240, 90] (.int ((4 : Nat) : Int)) true
        "WGS84" = some b ∧ b.MaxX ≤ (2 : ℝ) ^ 4 ∧ b.MaxY ≤ (2 : ℝ) ^ 4 :=
  (XYZ_max_le cache 256 (by norm_num) rfl 4 (by norm_num) (-240) (-90) 240 90 true).1

end sphericalmercator
